import Mathlib

/-!
Verification of the aspensqlplus-fmt formatter (`src/formatter/src/sqlfmt.rs`)
and its diagnostics pass (`src/formatter/src/diagnostics.rs`).

Strings are modelled as `List Char`.  The Rust code measures positions and
lengths in UTF-8 bytes; the embedding keeps byte arithmetic explicit through
`Char.utf8Size` (`utf8Len`, `byteTake`, `byteSplitAt`, ...).  Rust's
case-insensitive regex matching (the `(?i)` flag) and
`to_ascii_uppercase`/`to_lowercase` on ASCII identifier/keyword text are
modelled with `Char.toUpper`/`Char.toLower`, which perform exactly the ASCII
case mapping; the character classes `\s` and `\w` are modelled by their ASCII
parts (all text the matchers themselves consume is ASCII).

Rust operations that can panic (string slicing at a non-character-boundary
byte index) are modelled as `Option`-valued functions returning `none` at the
panic, and a `while` loop of the source that makes no progress (possible only
for `line_width = 0`) is likewise mapped to `none`.
-/

namespace SqlFmt

/-- Nat-level ASCII uppercase map, mirroring `Char.toUpper`. -/
def upperNat (n : Nat) : Nat := if 97 ≤ n ∧ n ≤ 122 then n - 32 else n

/-- Nat-level ASCII lowercase map, mirroring `Char.toLower`. -/
def lowerNat (n : Nat) : Nat := if 65 ≤ n ∧ n ≤ 90 then n + 32 else n

/-- ASCII part of the regex class `\s` (space, tab, newline, carriage
return, vertical tab, form feed), and of Rust's `char::is_whitespace`
as restricted to ASCII. -/
def isWs (c : Char) : Bool :=
  c.toNat = 32 || c.toNat = 9 || c.toNat = 10 || c.toNat = 13 || c.toNat = 11 || c.toNat = 12

/-- Nat-level word-character class `[A-Za-z0-9_]` (ASCII part of `\w`,
which `\b` boundaries are defined from). -/
def wordNat (n : Nat) : Bool :=
  decide ((65 ≤ n ∧ n ≤ 90) ∨ (97 ≤ n ∧ n ≤ 122) ∨ (48 ≤ n ∧ n ≤ 57) ∨ n = 95)

def isWordChar (c : Char) : Bool := wordNat c.toNat

/-- `[a-zA-Z_]`, the first character of the identifier pattern. -/
def isIdentFirst (c : Char) : Bool :=
  decide ((65 ≤ c.toNat ∧ c.toNat ≤ 90) ∨ (97 ≤ c.toNat ∧ c.toNat ≤ 122) ∨ c.toNat = 95)

/-- `[a-zA-Z0-9_]`, the remaining characters of the identifier pattern. -/
def isIdentRest (c : Char) : Bool :=
  isIdentFirst c || decide (48 ≤ c.toNat ∧ c.toNat ≤ 57)

/-- The operator class `[=<>!]` of the whitespace normalizer. -/
def isOpChar (c : Char) : Bool := c = '=' || c = '<' || c = '>' || c = '!'

/-- UTF-8 byte length of a string (Rust `str::len`). -/
def utf8Len : List Char → Nat
  | [] => 0
  | c :: r => c.utf8Size + utf8Len r

/-- Splitting a string at a UTF-8 byte index, as Rust `str::split_at`:
`none` models the panic on an index that is not a character boundary
(or is past the end of the string). -/
def byteSplitAt (n : Nat) (l : List Char) : Option (List Char × List Char) :=
  if n = 0 then some ([], l)
  else
    match l with
    | [] => none
    | c :: r =>
      if c.utf8Size ≤ n then
        (byteSplitAt (n - c.utf8Size) r).map (fun p => (c :: p.1, p.2))
      else none

/-- Rust `&s[..n]`: the prefix of `s` up to byte index `n`, `none` on a
non-boundary (panic). -/
def byteTake (n : Nat) (l : List Char) : Option (List Char) :=
  (byteSplitAt n l).map (fun p => p.1)

/-- `str::trim_start` (ASCII whitespace). -/
def ltrim (l : List Char) : List Char := l.dropWhile isWs

/-- `str::trim_end` (ASCII whitespace). -/
def rtrim (l : List Char) : List Char := (l.reverse.dropWhile isWs).reverse

/-- `str::trim` (ASCII whitespace). -/
def strTrim (l : List Char) : List Char := ltrim (rtrim l)

/-- `str::lines`: split on `'\n'`, stripping one `'\r'` before each split
point, with no final empty line for a trailing newline.  `acc` holds the
current line reversed. -/
def rustLinesGo (acc : List Char) : List Char → List (List Char)
  | [] => if acc = [] then [] else [acc.reverse]
  | c :: r =>
    if c = '\n' then
      (match acc with
       | '\r' :: a => a.reverse
       | _ => acc.reverse) :: rustLinesGo [] r
    else rustLinesGo (c :: acc) r

def rustLines (s : List Char) : List (List Char) := rustLinesGo [] s

/-- Case-insensitive "starts with": `ciStarts pat s` holds when `s` begins
with `pat` up to ASCII case (the `(?i)` matching of a literal pattern). -/
def ciStarts : List Char → List Char → Bool
  | [], _ => true
  | _ :: _, [] => false
  | p :: ps, c :: cs => p.toUpper = c.toUpper && ciStarts ps cs

/-- True when the position at the head of `l` is not a word character
(so a `\b` placed after word characters succeeds there). -/
def noWordAt (l : List Char) : Bool :=
  match l with
  | [] => true
  | c :: _ => !(isWordChar c)

/-- The fixed keyword lexicon `KEYWORDS` of `sqlfmt.rs`, in source order
(duplicates included, exactly as in the source). -/
def KEYWORDS : List (List Char) :=
  ["select", "insert", "update", "delete", "from", "where", "group", "by",
   "order", "having", "limit", "offset", "join", "inner", "left", "right",
   "full", "outer", "on", "as", "and", "or", "not", "null", "is", "in",
   "exists", "case", "when", "then", "else", "end", "create", "table",
   "view", "function", "procedure", "if", "begin", "commit", "rollback",
   "union", "all", "distinct", "with", "over", "write", "partition",
   "into", "values", "return", "returns", "declare", "set", "local",
   "real", "integer", "function", "set", "write", "record", "do", "char",
   "abs", "max", "min", "timestamp", "update"].map String.toList

/-- At the current position (with a word boundary just before it), the
length of the keyword-regex match `(?i)\b(?:select|insert|...)\b`, if any:
the first keyword of the alternation (in lexicon order) that matches
case-insensitively and is followed by a word boundary. -/
def tryKw (s : List Char) : Option Nat :=
  KEYWORDS.findSome? fun k =>
    if ciStarts k s && noWordAt (s.drop k.length) then some k.length else none

/-- The keyword-uppercasing pass (`kw_re.replace_all` with the uppercase of
each match): scan left to right; `prevW` records whether the previous
character is a word character (so that `\b` can be decided).  On a match of
length `n`, the matched text is ASCII-uppercased and scanning resumes after
it (the regex engine continues at the end of the match, and the last matched
character is a keyword letter, hence a word character).  `fuel` is a
structural-recursion bound: every step consumes at least one character, so
any `fuel ≥ s.length` gives the scan of the whole string, and the
fuel-exhausted branch (which returns the rest unchanged) is never taken
from `kwScan`. -/
def kwScanF (fuel : Nat) (prevW : Bool) (s : List Char) : List Char :=
  match fuel, s with
  | 0, s => s
  | _, [] => []
  | fuel + 1, c :: r =>
    if prevW then c :: kwScanF fuel (isWordChar c) r
    else
      match tryKw (c :: r) with
      | some n => ((c :: r).take n).map Char.toUpper ++ kwScanF fuel true ((c :: r).drop n)
      | none => c :: kwScanF fuel (isWordChar c) r

def kwScan (prevW : Bool) (s : List Char) : List Char := kwScanF s.length prevW s

/-- The keyword-normalization step of `format_sql`: when
`uppercase_keywords` is set, rewrite every keyword match to uppercase;
otherwise leave the text unchanged. -/
def uppercasePhase (flag : Bool) (s : List Char) : List Char :=
  if flag then kwScan false s else s

/-- `Regex::new(r",\s*").replace_all(line, ", ")`: each comma plus the
(greedy) whitespace run after it becomes comma-space.  One fuel unit per
match or copied character. -/
def commaStepF (fuel : Nat) (s : List Char) : List Char :=
  match fuel, s with
  | 0, s => s
  | _, [] => []
  | fuel + 1, c :: r =>
    if c = ',' then ',' :: ' ' :: commaStepF fuel (r.dropWhile isWs)
    else c :: commaStepF fuel r

def commaStep (s : List Char) : List Char := commaStepF s.length s

/-- `Regex::new(r"\s*([=<>!]+)\s*").replace_all(line, " $1 ")`: at each
position (leftmost-first), a greedy whitespace run followed by a non-empty
operator run and a greedy trailing whitespace run is replaced by the
operator run with exactly one space on each side. -/
def opStepF (fuel : Nat) (s : List Char) : List Char :=
  match fuel, s with
  | 0, s => s
  | _, [] => []
  | fuel + 1, c :: r =>
    let w := (c :: r).takeWhile isWs
    let o := ((c :: r).drop w.length).takeWhile isOpChar
    if o.isEmpty then c :: opStepF fuel r
    else
      ' ' :: (o ++ ' ' :: opStepF fuel ((((c :: r).drop w.length).drop o.length).dropWhile isWs))

def opStep (s : List Char) : List Char := opStepF s.length s

/-- The per-line whitespace normalizer of `format_sql`: trim, then the
comma rule, then the operator rule. -/
def normalizeLine (raw : List Char) : List Char := opStep (commaStep (strTrim raw))

/-- The `clause_breaks` array of `format_sql`, in priority order. -/
def clauseBreaks : List (List Char) :=
  [" SELECT ", " FROM ", " WHERE ", " GROUP BY ", " ORDER BY ", " HAVING ",
   " LIMIT ", " OFFSET ", " JOIN ", " INNER JOIN ", " LEFT JOIN "].map String.toList

/-- `str::find` for a literal pattern: byte offset of the first
occurrence. -/
def findSub (pat : List Char) : List Char → Option Nat
  | [] => if pat.isEmpty then some 0 else none
  | c :: r =>
    if List.isPrefixOf pat (c :: r) then some 0
    else (findSub pat r).map (fun n => c.utf8Size + n)

/-- The clause-marker search of the wrapping loop: the first marker in
priority order whose first occurrence has `0 < pos < line_width`. -/
def markerIdx (w : Nat) (rest : List Char) : Option Nat :=
  clauseBreaks.findSome? fun m =>
    match findSub m rest with
    | some p => if 0 < p ∧ p < w then some p else none
    | none => none

/-- `str::rfind(',')`: byte offset of the last comma. -/
def lastCommaByte : List Char → Option Nat
  | [] => none
  | c :: r =>
    match lastCommaByte r with
    | some n => some (c.utf8Size + n)
    | none => if c = ',' then some 0 else none

/-- The split index chosen by one iteration of the wrapping loop: clause
marker, else one past the last comma of `&rest[..line_width]` (`none`
models the panic when byte `line_width` is not a character boundary),
else the hard cut at `line_width` itself. -/
def splitIdx (w : Nat) (rest : List Char) : Option Nat :=
  match markerIdx w rest with
  | some p => some p
  | none =>
    (byteTake w rest).map fun pre =>
      match lastCommaByte pre with
      | some p => p + 1
      | none => w

/-- One space-run of `indent_width` spaces (and the depth prefixes of the
indentation engine). -/
def mkIndent (n : Nat) : List Char := List.replicate n ' '

/-- The `while rest.len() > line_width` wrapping loop of `format_sql`.
`first` is the source's `first` flag; the result is the text the loop and
the trailing `if !rest.is_empty()` block append to `out`.  `none` models
a panic (byte index not on a character boundary) or a loop that makes no
progress (possible only for `line_width = 0`); one fuel unit per
iteration suffices for `fuel > rest.length` whenever `line_width ≥ 1`. -/
def wrapLoopF (fuel : Nat) (w iw : Nat) (first : Bool) (rest : List Char) :
    Option (List Char) :=
  match fuel with
  | 0 => none
  | fuel + 1 =>
    if utf8Len rest ≤ w then
      some (if rest.isEmpty then [] else (if first then rest else mkIndent iw ++ rest))
    else
      match splitIdx w rest with
      | none => none
      | some idx =>
        match byteSplitAt idx rest with
        | none => none
        | some (head, tail) =>
          let piece := if first then rtrim head else mkIndent iw ++ strTrim head
          (wrapLoopF fuel w iw false (strTrim tail)).map fun out => piece ++ '\n' :: out

/-- The line wrapper: lines of byte length at most `line_width` pass
through unchanged; longer lines go through the wrapping loop. -/
def wrapLine (w iw : Nat) (line : List Char) : Option (List Char) :=
  if utf8Len line > w then wrapLoopF (line.length + 1) w iw true line
  else some line

/-- `IndentStyle` from `options.rs`. -/
inductive IndentStyle where
  | Two : IndentStyle
  | Four : IndentStyle
deriving DecidableEq, Repr

/-- `Options` from `options.rs`. -/
structure Options where
  line_width : Nat
  indent : IndentStyle
  uppercase_keywords : Bool
deriving DecidableEq, Repr

def Options.indent_width (o : Options) : Nat :=
  match o.indent with
  | IndentStyle.Two => 2
  | IndentStyle.Four => 4

/-- One step of the indentation engine: from the current depth and the
(already wrapped, possibly multi-line) unit, the emitted text and the new
depth.  Mirrors the loop body of `format_sql`: a leading `END`/`)` token
decrements before emission (floored at 0); emission prefixes
`depth * indent_width` spaces to the trimmed unit; a leading
`THEN`/`BEGIN`/`CASE` or any `(` in the emitted unit increments; a unit
whose uppercased trimmed text is exactly `END` or starts with `"END "`
decrements again (floored at 0). -/
def indentStep (iw level : Nat) (line : List Char) : List Char × Nat :=
  let trimmed := ltrim (line.map Char.toUpper)
  let l1 :=
    if List.isPrefixOf "END".toList trimmed || List.isPrefixOf ")".toList trimmed then
      (if 0 < level then level - 1 else level)
    else level
  let out := mkIndent (l1 * iw) ++ strTrim line
  let l2 :=
    if List.isPrefixOf "THEN".toList trimmed || List.isPrefixOf "BEGIN".toList trimmed
        || List.isPrefixOf "CASE".toList trimmed || out.contains '(' then
      l1 + 1
    else l1
  let l3 :=
    if List.isPrefixOf "END ".toList trimmed || trimmed = "END".toList then
      (if 0 < l2 then l2 - 1 else l2)
    else l2
  (out, l3)

/-- The indentation engine: fold `indentStep` over the wrapped units,
emitting each with a trailing newline. -/
def indentLoop (iw : Nat) (level : Nat) : List (List Char) → List Char
  | [] => []
  | l :: ls =>
    let s := indentStep iw level l
    s.1 ++ '\n' :: indentLoop iw s.2 ls

/-- One line of the per-line phase of `format_sql`: whitespace
normalization followed by wrapping. -/
def processLine (w iw : Nat) (raw : List Char) : Option (List Char) :=
  wrapLine w iw (normalizeLine raw)

/-- `format_sql` from `sqlfmt.rs`: keyword normalization, per-line
whitespace normalization and wrapping, then the indentation engine and a
final `trim_end`.  `none` models a panic inside the wrapping step. -/
def format_sql (opts : Options) (input : List Char) : Option (List Char) :=
  let s := uppercasePhase opts.uppercase_keywords input
  ((rustLines s).mapM (processLine opts.line_width opts.indent_width)).map
    fun ls => rtrim (indentLoop opts.indent_width 0 ls)

/-- `DiagnosticSeverity` from `diagnostics.rs`. -/
inductive DiagnosticSeverity where
  | Error : DiagnosticSeverity
  | Warning : DiagnosticSeverity
  | Info : DiagnosticSeverity
deriving DecidableEq, Repr

/-- `Diagnostic` from `diagnostics.rs`. -/
structure Diagnostic where
  line : Nat
  column : Nat
  end_line : Nat
  end_column : Nat
  message : List Char
  severity : DiagnosticSeverity
  code : List Char
deriving DecidableEq, Repr

/-- `Variable` from `diagnostics.rs`. -/
structure Variable where
  name : List Char
  declaration_type : List Char
  line : Nat
  column : Nat
  end_column : Nat
deriving DecidableEq, Repr

/-- The alternation `(DECLARE|SET|LOCAL)` of the declaration regex. -/
def declKeywords : List (List Char) := ["DECLARE", "SET", "LOCAL"].map String.toList

/-- A match of `(?i)(DECLARE|SET|LOCAL)\s+([a-zA-Z_][a-zA-Z0-9_]*)` at the
current position (the leading `\b` is checked by the scanner): keyword
length, length of the (greedy, non-empty) whitespace run, and the (greedy)
identifier text. -/
def tryDeclAt (s : List Char) : Option (Nat × Nat × List Char) :=
  declKeywords.findSome? fun k =>
    if ciStarts k s then
      let ws := (s.drop k.length).takeWhile isWs
      if ws.isEmpty then none
      else
        match s.drop (k.length + ws.length) with
        | [] => none
        | c :: r =>
          if isIdentFirst c then some (k.length, ws.length, c :: r.takeWhile isIdentRest)
          else none
    else none

/-- One capture of `decl_regex.captures_iter`: the matched keyword text
(original case), the identifier's byte offset within the line, and the
identifier text. -/
structure DeclMatch where
  kwText : List Char
  identStart : Nat
  ident : List Char
deriving DecidableEq, Repr

/-- The scan of one line by `decl_regex.captures_iter`: left to right,
non-overlapping, resuming after each match; `pos` is the byte offset of
the current position, `prevW` whether the previous character is a word
character (for the leading `\b`; the keywords start with a word
character, so the boundary holds exactly when `prevW` is false). -/
def scanDeclsF (fuel : Nat) (prevW : Bool) (pos : Nat) (s : List Char) : List DeclMatch :=
  match fuel, s with
  | 0, _ => []
  | _, [] => []
  | fuel + 1, c :: r =>
    if prevW then scanDeclsF fuel (isWordChar c) (pos + c.utf8Size) r
    else
      match tryDeclAt (c :: r) with
      | some (kn, wn, id) =>
        let kw := (c :: r).take kn
        let ws := ((c :: r).drop kn).take wn
        { kwText := kw, identStart := pos + utf8Len kw + utf8Len ws, ident := id } ::
          scanDeclsF fuel true (pos + utf8Len kw + utf8Len ws + utf8Len id)
            ((c :: r).drop (kn + wn + id.length))
      | none => scanDeclsF fuel (isWordChar c) (pos + c.utf8Size) r

def scanDecls (l : List Char) : List DeclMatch := scanDeclsF l.length false 0 l

/-- The `Variable` record built for one declaration match on line
`lineIdx` (0-based): 1-based line, 1-based start column, and
`end_column = end offset (exclusive) + 1`. -/
def lineVars (lineIdx : Nat) (l : List Char) : List Variable :=
  (scanDecls l).map fun m =>
    { name := m.ident
      declaration_type := m.kwText.map Char.toUpper
      line := lineIdx + 1
      column := m.identStart + 1
      end_column := m.identStart + utf8Len m.ident + 1 }

/-- `all_variables` of `analyze_variables`: every declaration match of
every line, in line order and, within a line, left to right. -/
def allVariables (input : List Char) : List Variable :=
  (rustLines input).enum.flatMap fun p => lineVars p.1 p.2

/-- The count of matches of `(?i)\b{name}\b` over the whole input
(`usage_regex.find_iter`), non-overlapping, left to right.  `name` is
always a non-empty identifier (it was captured by the declaration
pattern), so both `\b`s reduce to the adjacent character not being a word
character. -/
def wordCountF (fuel : Nat) (name : List Char) (prevW : Bool) (s : List Char) : Nat :=
  match fuel, s with
  | 0, _ => 0
  | _, [] => 0
  | fuel + 1, c :: r =>
    if !prevW && !name.isEmpty && ciStarts name (c :: r)
        && noWordAt ((c :: r).drop name.length) then
      1 + wordCountF fuel name true ((c :: r).drop name.length)
    else wordCountF fuel name (isWordChar c) r

def countOccurrences (input name : List Char) : Nat := wordCountF input.length name false input

/-- The lowercase grouping key of a variable (`var_name.to_lowercase()`;
identifiers are ASCII). -/
def lowerName (v : Variable) : List Char := v.name.map Char.toLower

/-- `is_variable_used` from `diagnostics.rs`: count whole-word
case-insensitive occurrences of the name over the whole input and compare
with the number of declarations sharing the lowercase name. -/
def is_variable_used (input : List Char) (name : List Char) (vars : List Variable) : Bool :=
  let usage := countOccurrences input name
  let declCount := (vars.filter fun v => v.name.map Char.toLower = name.map Char.toLower).length
  declCount < usage

/-- Insertion into the `variables: HashMap<String, Vec<Variable>>`
grouping, represented as an association list in first-insertion key
order: an existing key's vector is extended at the end, a new key is
appended. -/
def insertGroup (gs : List (List Char × List Variable)) (key : List Char) (v : Variable) :
    List (List Char × List Variable) :=
  match gs with
  | [] => [(key, [v])]
  | (k, vs) :: rest =>
    if k = key then (k, vs ++ [v]) :: rest else (k, vs) :: insertGroup rest key v

/-- The contents of the `variables` map after the extraction pass: each
lowercase name paired with its declarations in extraction order.  (The
list order is one concrete enumeration; the Rust `HashMap` iterates its
entries in an unspecified, seed-dependent order, which is modelled by the
`order` parameter of `analyze_variables_with`.) -/
def groupList (vars : List Variable) : List (List Char × List Variable) :=
  vars.foldl (fun gs v => insertGroup gs (lowerName v) v) []

def dupCode : List Char := "duplicate-variable".toList

def unusedCode : List Char := "unused-variable".toList

def dupMessage (n : List Char) : List Char :=
  "Variable '".toList ++ n ++ "' has already been declared".toList

def unusedMessage (n : List Char) : List Char :=
  "Unused variable '".toList ++ n ++ "'".toList

/-- The duplicate-declaration diagnostic pushed for one declaration
occurrence. -/
def mkDupDiag (v : Variable) : Diagnostic :=
  { line := v.line, column := v.column, end_line := v.line, end_column := v.end_column,
    message := dupMessage v.name, severity := DiagnosticSeverity.Error, code := dupCode }

/-- The unused-variable diagnostic pushed for one declaration
occurrence. -/
def mkUnusedDiag (v : Variable) : Diagnostic :=
  { line := v.line, column := v.column, end_line := v.line, end_column := v.end_column,
    message := unusedMessage v.name, severity := DiagnosticSeverity.Warning, code := unusedCode }

/-- The duplicate diagnostics of one name's declaration vector: every
occurrence after the first (the `if declarations.len() > 1` loop skipping
`i == 0`). -/
def groupDup (ds : List Variable) : List Diagnostic :=
  if 1 < ds.length then (ds.drop 1).map mkDupDiag else []

/-- The duplicate-detection loop over the grouping map's entries. -/
def dupSection (gs : List (List Char × List Variable)) : List Diagnostic :=
  gs.flatMap fun g => groupDup g.2

/-- The unused-variable loop over `all_variables` (extraction order). -/
def unusedSection (input : List Char) (vars : List Variable) : List Diagnostic :=
  (vars.filter fun v => !(is_variable_used input v.name vars)).map mkUnusedDiag

/-- A possible iteration order of the `variables` hash map: an arbitrary
permutation of its entries.  (Rust's `HashMap` with `RandomState` gives no
ordering guarantee, and the seed differs between invocations.) -/
def IsGroupOrder (f : List (List Char × List Variable) → List (List Char × List Variable)) :
    Prop :=
  ∀ gs, List.Perm (f gs) gs

/-- `analyze_variables` from `diagnostics.rs`, with the hash map's
iteration order supplied as the `order` parameter: the duplicate
diagnostics (grouped per name, iterated in `order`) followed by the
unused-variable diagnostics over `all_variables`. -/
def analyze_variables_with
    (order : List (List Char × List Variable) → List (List Char × List Variable))
    (input : List Char) : List Diagnostic :=
  let vars := allVariables input
  dupSection (order (groupList vars)) ++ unusedSection input vars

/-- `analyze_variables` under one concrete iteration order (first-insertion
order). -/
def analyze_variables (input : List Char) : List Diagnostic :=
  analyze_variables_with id input

/-- Recover the lowercase name a duplicate-variable diagnostic is about,
by stripping the fixed message frame `Variable '...' has already been
declared` (10 characters before the name, 27 after). -/
def dupKeyOf (d : Diagnostic) : Option (List Char) :=
  if d.code = dupCode then
    some (((d.message.drop 10).take (d.message.length - 37)).map Char.toLower)
  else none

/-- Recover the lowercase name an unused-variable diagnostic is about, by
stripping the fixed message frame `Unused variable '...'` (17 characters
before the name, 1 after). -/
def unusedKeyOf (d : Diagnostic) : Option (List Char) :=
  if d.code = unusedCode then
    some (((d.message.drop 17).take (d.message.length - 18)).map Char.toLower)
  else none

/-- Lookup of a key's declaration vector in the grouping map. -/
def findGroup (gs : List (List Char × List Variable)) (key : List Char) :
    Option (List Variable) :=
  match gs with
  | [] => none
  | (k, vs) :: rest => if k = key then some vs else findGroup rest key

/-- Claim-side reading of the wrapping loop (the specification describes
the wrapper as producing a list of segments): while the remaining text
exceeds the width, cut at the split index described by the specification
(first qualifying clause marker, else after the last comma before the
width, else at the width), collect the piece, and continue on the trimmed
tail; the fitting tail is the last segment.  Failure (`none`) at a cut
that is not a character boundary, or when no progress is possible. -/
def specSegsF (fuel w : Nat) (rest : List Char) : Option (List (List Char)) :=
  match fuel with
  | 0 => none
  | fuel + 1 =>
    if utf8Len rest ≤ w then some [rest]
    else
      match splitIdx w rest with
      | none => none
      | some idx =>
        match byteSplitAt idx rest with
        | none => none
        | some (head, tail) => (specSegsF fuel w (strTrim tail)).map (head :: ·)

/-- Claim-side rendering of the segment list: the first segment carries no
added indent (its end is trimmed), every subsequent segment is prefixed
with one indent unit and trimmed, the final tail is appended indented
(and an empty final tail adds nothing). -/
def renderSegs (iw : Nat) (first : Bool) : List (List Char) → List Char
  | [] => []
  | [last] => if last.isEmpty then [] else (if first then last else mkIndent iw ++ last)
  | s :: rest =>
    (if first then rtrim s else mkIndent iw ++ strTrim s) ++ '\n' :: renderSegs iw false rest

/-- Claim-side line wrapper: pass lines within the width through
unchanged, otherwise produce the described segments and render them. -/
def wrapLineSpec (w iw : Nat) (line : List Char) : Option (List Char) :=
  if utf8Len line > w then (specSegsF (line.length + 1) w line).map (renderSegs iw true)
  else some line

/-- Every comma is followed by exactly one space: the character after
each comma is a space and the character after that (if any) is not
whitespace. -/
def commaOK : List Char → Bool
  | [] => true
  | c :: rest =>
    if c = ',' then
      match rest with
      | [] => false
      | d :: rest2 =>
        if d = ' ' then
          (match rest2 with
           | [] => true
           | e :: _ => !(isWs e)) && commaOK rest2
        else false
    else commaOK rest

/-! ### Basic lemmas -/

theorem char_toNat_ofNat {n : Nat} (h : n.isValidChar) : (Char.ofNat n).toNat = n := by
  simp [Char.ofNat, h, Char.ofNatAux, Char.toNat, UInt32.toNat]

theorem char_toNat_lt (c : Char) : c.toNat < 1114112 := by
  have h := c.valid
  unfold Nat.isValidChar at h
  unfold Char.toNat
  omega

theorem char_toNat_inj {a b : Char} (h : a.toNat = b.toNat) : a = b := by
  rcases a with ⟨⟨a, ha⟩, va⟩
  rcases b with ⟨⟨b, hb⟩, vb⟩
  simp [Char.toNat, UInt32.toNat] at h
  simp [h]

theorem toUpper_toNat (c : Char) : (Char.toUpper c).toNat = upperNat c.toNat := by
  by_cases h : 97 ≤ c.toNat ∧ c.toNat ≤ 122
  · simp only [Char.toUpper, upperNat, ge_iff_le, h, and_self, if_true]
    exact char_toNat_ofNat (Or.inl (by omega))
  · simp only [Char.toUpper, upperNat, ge_iff_le, h, if_false]

theorem toLower_toNat (c : Char) : (Char.toLower c).toNat = lowerNat c.toNat := by
  by_cases h : 65 ≤ c.toNat ∧ c.toNat ≤ 90
  · simp only [Char.toLower, lowerNat, ge_iff_le, h, and_self, if_true]
    exact char_toNat_ofNat (Or.inl (by omega))
  · simp only [Char.toLower, lowerNat, ge_iff_le, h, if_false]

theorem upperNat_idem (n : Nat) : upperNat (upperNat n) = upperNat n := by
  by_cases h : 97 ≤ n ∧ n ≤ 122
  · simp only [upperNat, h, and_self, if_true]
    exact if_neg (by omega)
  · simp only [upperNat, h, if_false]

theorem toUpper_toUpper (c : Char) : c.toUpper.toUpper = c.toUpper := by
  apply char_toNat_inj
  rw [toUpper_toNat, toUpper_toNat, upperNat_idem]

theorem upperNat_congr_lowerNat {n m : Nat} (h : lowerNat n = lowerNat m) :
    upperNat n = upperNat m := by
  unfold lowerNat at h
  unfold upperNat
  split at h <;> split at h <;> split <;> split <;> omega

theorem toUpper_congr_of_toLower {a b : Char} (h : a.toLower = b.toLower) :
    a.toUpper = b.toUpper := by
  apply char_toNat_inj
  have h' : a.toLower.toNat = b.toLower.toNat := by rw [h]
  rw [toLower_toNat, toLower_toNat] at h'
  rw [toUpper_toNat, toUpper_toNat]
  exact upperNat_congr_lowerNat h'

theorem wordNat_congr_upperNat {n m : Nat} (h : upperNat n = upperNat m) :
    wordNat n = wordNat m := by
  unfold wordNat
  apply decide_eq_decide.mpr
  unfold upperNat at h
  split at h <;> split at h <;> omega

theorem isWordChar_congr_toUpper {a b : Char} (h : a.toUpper = b.toUpper) :
    isWordChar a = isWordChar b := by
  unfold isWordChar
  apply wordNat_congr_upperNat
  have h' : a.toUpper.toNat = b.toUpper.toNat := by rw [h]
  rwa [toUpper_toNat, toUpper_toNat] at h'

theorem utf8Size_pos (c : Char) : 1 ≤ c.utf8Size := by
  unfold Char.utf8Size
  dsimp only
  split
  · omega
  · split
    · omega
    · split <;> omega

theorem utf8Len_append (a b : List Char) : utf8Len (a ++ b) = utf8Len a + utf8Len b := by
  induction a with
  | nil => simp [utf8Len]
  | cons c r ih => simp [utf8Len, ih]; omega

theorem ciStarts_length_le {p s : List Char} (h : ciStarts p s = true) : p.length ≤ s.length := by
  induction p generalizing s with
  | nil => simp
  | cons a ps ih =>
    cases s with
    | nil => simp [ciStarts] at h
    | cons c cs =>
      simp only [ciStarts, Bool.and_eq_true] at h
      simpa [List.length_cons] using Nat.succ_le_succ (ih h.2)

theorem KEYWORDS_min_len : ∀ k ∈ KEYWORDS, 1 ≤ k.length := by decide

theorem tryKw_pos {s : List Char} {n : Nat} (h : tryKw s = some n) :
    1 ≤ n ∧ n ≤ s.length := by
  obtain ⟨k, hk, he⟩ := List.exists_of_findSome?_eq_some h
  by_cases hc : ciStarts k s && noWordAt (s.drop k.length)
  · rw [if_pos hc] at he
    have hn : n = k.length := by exact (Option.some_inj.mp he).symm
    subst hn
    constructor
    · exact KEYWORDS_min_len k hk
    · exact ciStarts_length_le (by
        have := hc
        simp only [Bool.and_eq_true] at this
        exact this.1)
  · rw [if_neg hc] at he
    exact absurd he (by simp)

/-! ### Line wrapper: loop and segment semantics agree -/

theorem specSegsF_ne_nil {fuel w : Nat} {rest : List Char} {l : List (List Char)}
    (h : specSegsF fuel w rest = some l) : l ≠ [] := by
  induction fuel generalizing rest l with
  | zero => simp [specSegsF] at h
  | succ fuel ih =>
    unfold specSegsF at h
    split at h
    · cases h
      simp
    · split at h
      · cases h
      · split at h
        · cases h
        · cases hss : specSegsF fuel w (strTrim _) with
          | none => rw [hss] at h; cases h
          | some segs => rw [hss] at h; cases h; simp

theorem wrapLoopF_eq_spec (fuel w iw : Nat) (first : Bool) (rest : List Char) :
    wrapLoopF fuel w iw first rest = (specSegsF fuel w rest).map (renderSegs iw first) := by
  induction fuel generalizing first rest with
  | zero => rfl
  | succ fuel ih =>
    unfold wrapLoopF specSegsF
    split
    · rfl
    · cases hsi : splitIdx w rest with
      | none => rfl
      | some idx =>
        dsimp only
        cases hsp : byteSplitAt idx rest with
        | none => rfl
        | some p =>
          obtain ⟨head, tail⟩ := p
          dsimp only
          rw [ih]
          cases hss : specSegsF fuel w (strTrim tail) with
          | none => rfl
          | some segs =>
            have hne := specSegsF_ne_nil hss
            cases segs with
            | nil => exact absurd rfl hne
            | cons a as => rfl

/-! ### Whitespace normalizer: comma spacing -/

theorem commaOK_cons_ne {c : Char} {l : List Char} (hc : c ≠ ',') :
    commaOK (c :: l) = commaOK l := by
  rw [commaOK.eq_def]
  simp [hc]

theorem commaOK_comma {l : List Char} :
    commaOK (',' :: l) =
      (match l with
       | [] => false
       | d :: rest2 =>
         if d = ' ' then
           (match rest2 with
            | [] => true
            | e :: _ => !(isWs e)) && commaOK rest2
         else false) := by
  rw [commaOK.eq_def]
  simp

theorem commaOK_tail {c : Char} {l : List Char} (h : commaOK (c :: l) = true) :
    commaOK l = true := by
  by_cases hc : c = ','
  · subst hc
    rw [commaOK_comma] at h
    match l with
    | [] => exact absurd h (by dsimp only; simp)
    | d :: l2 =>
      by_cases hd : d = ' '
      · subst hd
        dsimp only at h
        rw [if_pos rfl] at h
        rw [Bool.and_eq_true] at h
        rw [commaOK_cons_ne (by decide)]
        exact h.2
      · simp [hd] at h
  · rwa [commaOK_cons_ne hc] at h

theorem commaOK_drop {l : List Char} (n : Nat) (h : commaOK l = true) :
    commaOK (l.drop n) = true := by
  induction n generalizing l with
  | zero => simpa using h
  | succ n ih =>
    match l with
    | [] => simpa using h
    | c :: r => exact ih (commaOK_tail h)

theorem commaOK_dropWhile {p : Char → Bool} {l : List Char} (h : commaOK l = true) :
    commaOK (l.dropWhile p) = true := by
  induction l with
  | nil => simpa using h
  | cons c r ih =>
    rw [List.dropWhile_cons]
    split
    · exact ih (commaOK_tail h)
    · exact h

theorem commaOK_append_nocomma {x y : List Char} (hx : ∀ c ∈ x, c ≠ ',') :
    commaOK (x ++ y) = commaOK y := by
  induction x with
  | nil => rfl
  | cons c r ih =>
    rw [List.cons_append, commaOK_cons_ne (hx c (by simp)), ih]
    intro d hd
    exact hx d (by simp [hd])

theorem commaStepF_head (fuel : Nat) (s : List Char) :
    (commaStepF fuel s).head? = s.head? := by
  match fuel, s with
  | 0, s => cases s <;> rfl
  | fuel + 1, [] => rfl
  | fuel + 1, c :: r =>
    unfold commaStepF
    split
    · subst c; rfl
    · rfl

theorem head?_dropWhile_not {p : Char → Bool} {l : List Char} {c : Char}
    (h : (l.dropWhile p).head? = some c) : p c = false := by
  induction l with
  | nil => cases h
  | cons a r ih =>
    rw [List.dropWhile_cons] at h
    split at h
    · exact ih h
    · cases h
      simp_all

theorem commaStepF_ok (fuel : Nat) (s : List Char) (hf : s.length ≤ fuel) :
    commaOK (commaStepF fuel s) = true := by
  induction fuel generalizing s with
  | zero =>
    have : s = [] := by
      cases s
      · rfl
      · simp at hf
    subst this
    rfl
  | succ fuel ih =>
    match s with
    | [] => rfl
    | c :: r =>
      unfold commaStepF
      by_cases hc : c = ','
      · subst hc
        rw [if_pos rfl]
        rw [commaOK_comma]
        dsimp only
        rw [if_pos rfl, Bool.and_eq_true]
        constructor
        · have hh := commaStepF_head fuel (r.dropWhile isWs)
          cases hx : (commaStepF fuel (r.dropWhile isWs)) with
          | nil => rfl
          | cons e t =>
            rw [hx] at hh
            have : (r.dropWhile isWs).head? = some e := by rw [← hh]; rfl
            have := head?_dropWhile_not this
            simp [this]
        · exact ih _ (by
            have hd := (List.dropWhile_sublist (l := r) isWs).length_le
            simp at hf
            omega)
      · rw [if_neg hc]
        rw [commaOK_cons_ne hc]
        exact ih _ (by simp at hf ⊢; omega)

theorem isOpChar_not_ws {c : Char} (h : isOpChar c = true) : isWs c = false := by
  simp [isOpChar] at h
  rcases h with ((h | h) | h) | h <;> subst h <;> decide

theorem isOpChar_ne_comma {c : Char} (h : isOpChar c = true) : c ≠ ',' := by
  simp [isOpChar] at h
  rcases h with ((h | h) | h) | h <;> subst h <;> decide

theorem opStepF_nil (f : Nat) : opStepF f [] = [] := by
  match f with
  | 0 => rfl
  | f + 1 => rfl

theorem opStepF_head_nonws {f : Nat} {e : Char} {t : List Char}
    (hw : isWs e = false) (ho : isOpChar e = false) :
    (opStepF f (e :: t)).head? = some e := by
  match f with
  | 0 => rfl
  | f + 1 =>
    unfold opStepF
    simp [List.takeWhile_cons, hw, ho]

theorem opStepF_after_comma (fuel : Nat) (r2 : List Char)
    (hg : ∀ e t, r2 = e :: t → isWs e = false)
    (h2 : commaOK r2 = true)
    (ih : ∀ f, f < fuel → ∀ s, commaOK s = true → commaOK (opStepF f s) = true) :
    commaOK (',' :: opStepF fuel (' ' :: r2)) = true := by
  match fuel with
  | 0 =>
    show commaOK (',' :: ' ' :: r2) = true
    rw [commaOK_comma]
    match r2 with
    | [] => rfl
    | e :: t =>
      dsimp only
      rw [if_pos rfl, Bool.and_eq_true]
      exact ⟨by simp [hg e t rfl], h2⟩
  | f + 1 =>
    match r2 with
    | [] =>
      have : opStepF (f + 1) (' ' :: ([] : List Char)) = [' '] := by
        unfold opStepF
        rw [List.takeWhile_cons, if_pos (by decide)]
        simp [opStepF_nil]
      rw [this]
      decide
    | e :: t =>
      have he : isWs e = false := hg e t rfl
      have hw : List.takeWhile isWs (' ' :: e :: t) = [' '] := by
        rw [List.takeWhile_cons, if_pos (by decide), List.takeWhile_cons, if_neg (by simp [he])]
      by_cases hoe : isOpChar e = true
      · -- an operator run follows the space: the match is taken at the space
        have ho : ((' ' :: e :: t).drop ((' ' :: e :: t).takeWhile isWs).length).takeWhile
            isOpChar = e :: t.takeWhile isOpChar := by
          rw [hw]
          simp [List.takeWhile_cons, hoe]
        unfold opStepF
        dsimp only
        rw [ho]
        simp only [List.isEmpty_cons, Bool.false_eq_true, if_false]
        rw [hw]
        simp only [List.length_cons, List.length_nil, List.drop_succ_cons, List.drop_zero]
        rw [commaOK_comma]
        dsimp only
        rw [if_pos rfl, Bool.and_eq_true]
        constructor
        · simp [he]
        · rw [List.cons_append, commaOK_cons_ne (isOpChar_ne_comma hoe)]
          rw [commaOK_append_nocomma
            (fun c hc => isOpChar_ne_comma (List.mem_takeWhile_imp hc))]
          rw [commaOK_cons_ne (by decide)]
          exact ih f (by omega) _ (commaOK_dropWhile (commaOK_drop _ (commaOK_tail h2)))
      · have hoe2 : isOpChar e = false := by simpa using hoe
        have ho : ((' ' :: e :: t).drop ((' ' :: e :: t).takeWhile isWs).length).takeWhile
            isOpChar = [] := by
          rw [hw]
          simp [List.takeWhile_cons, hoe2]
        unfold opStepF
        dsimp only
        rw [ho]
        simp only [List.isEmpty_nil, if_true]
        cases hx : opStepF f (e :: t) with
        | nil => rw [commaOK_comma]; rfl
        | cons a X =>
          have ha : a = e := by
            have hh := opStepF_head_nonws (f := f) (t := t) he hoe2
            rw [hx] at hh
            simpa using hh
          subst ha
          rw [commaOK_comma]
          dsimp only
          rw [if_pos rfl, Bool.and_eq_true]
          refine ⟨by simp [he], ?_⟩
          rw [← hx]
          exact ih f (by omega) _ h2

theorem opStepF_zero (s : List Char) : opStepF 0 s = s := by
  cases s <;> rfl

theorem opStepF_ok : ∀ (fuel : Nat) (s : List Char),
    commaOK s = true → commaOK (opStepF fuel s) = true := by
  intro fuel
  induction fuel using Nat.strong_induction_on with
  | _ fuel ih =>
    intro s hs
    match fuel, s with
    | 0, s => rw [opStepF_zero]; exact hs
    | fuel + 1, [] => exact hs
    | fuel + 1, c :: r =>
      by_cases hc : c = ','
      · subst hc
        have ho : (((',' :: r).drop ((',' :: r).takeWhile isWs).length).takeWhile isOpChar)
            = [] := by
          rw [List.takeWhile_cons, if_neg (by decide)]
          simp only [List.length_nil, List.drop_zero]
          rw [List.takeWhile_cons, if_neg (by decide)]
        unfold opStepF
        dsimp only
        rw [ho]
        simp only [List.isEmpty_nil, if_true]
        rw [commaOK_comma] at hs
        match r with
        | [] => cases hs
        | d :: r2 =>
          dsimp only at hs
          by_cases hd : d = ' '
          · subst hd
            rw [if_pos rfl, Bool.and_eq_true] at hs
            obtain ⟨hgd, hr2⟩ := hs
            apply opStepF_after_comma fuel r2 ?_ hr2 (fun f hf s2 hcs => ih f (by omega) s2 hcs)
            intro e t het
            subst het
            simpa using hgd
          · rw [if_neg hd] at hs
            cases hs
      · unfold opStepF
        dsimp only
        by_cases hoE :
            ((((c :: r).drop ((c :: r).takeWhile isWs).length).takeWhile isOpChar).isEmpty) = true
        · rw [if_pos hoE]
          rw [commaOK_cons_ne hc]
          exact ih fuel (by omega) r (commaOK_tail hs)
        · rw [if_neg hoE]
          rw [commaOK_cons_ne (by decide)]
          rw [commaOK_append_nocomma (fun d hd => isOpChar_ne_comma (List.mem_takeWhile_imp hd))]
          rw [commaOK_cons_ne (by decide)]
          exact ih fuel (by omega) _ (commaOK_dropWhile (commaOK_drop _ (commaOK_drop _ hs)))


/-! ### Keyword normalizer: case-insensitive match congruence and idempotence -/

theorem ciStarts_congr {s t : List Char} (h : s.map Char.toUpper = t.map Char.toUpper)
    (p : List Char) : ciStarts p s = ciStarts p t := by
  induction p generalizing s t with
  | nil => rfl
  | cons a ps ih =>
    cases s with
    | nil =>
      cases t with
      | nil => rfl
      | cons d ds => simp at h
    | cons c cs =>
      cases t with
      | nil => simp at h
      | cons d ds =>
        simp only [List.map_cons, List.cons.injEq] at h
        simp only [ciStarts, h.1, ih h.2]

theorem noWordAt_congr {s t : List Char} (h : s.map Char.toUpper = t.map Char.toUpper) :
    noWordAt s = noWordAt t := by
  cases s with
  | nil =>
    cases t with
    | nil => rfl
    | cons d ds => simp at h
  | cons c cs =>
    cases t with
    | nil => simp at h
    | cons d ds =>
      simp only [List.map_cons, List.cons.injEq] at h
      simp only [noWordAt, isWordChar_congr_toUpper h.1]

theorem map_toUpper_drop {s t : List Char} (h : s.map Char.toUpper = t.map Char.toUpper)
    (n : Nat) : (s.drop n).map Char.toUpper = (t.drop n).map Char.toUpper := by
  rw [List.map_drop, List.map_drop, h]

theorem tryKw_congr {s t : List Char} (h : s.map Char.toUpper = t.map Char.toUpper) :
    tryKw s = tryKw t := by
  unfold tryKw
  congr 1
  funext k
  rw [ciStarts_congr h, noWordAt_congr (map_toUpper_drop h k.length)]

theorem kwScanF_toUpper (fuel : Nat) (p : Bool) (s : List Char) :
    (kwScanF fuel p s).map Char.toUpper = s.map Char.toUpper := by
  induction fuel generalizing p s with
  | zero => cases s <;> rfl
  | succ fuel ih =>
    match s with
    | [] => rfl
    | c :: r =>
      unfold kwScanF
      by_cases hp : p
      · simp only [hp, if_true, List.map_cons, ih]
      · simp only [hp, if_false, Bool.false_eq_true]
        cases htk : tryKw (c :: r) with
        | none => simp only [List.map_cons, ih]
        | some n =>
          rw [List.map_append, ih]
          rw [List.map_map]
          have hcomp : Char.toUpper ∘ Char.toUpper = Char.toUpper := by
            funext x
            exact toUpper_toUpper x
          rw [hcomp]
          rw [← List.map_append, List.take_append_drop]

theorem kwScanF_zero (p : Bool) (s : List Char) : kwScanF 0 p s = s := by
  cases s <;> rfl

theorem kwScanF_length (fuel : Nat) (p : Bool) (s : List Char) :
    (kwScanF fuel p s).length = s.length := by
  induction fuel generalizing p s with
  | zero => rw [kwScanF_zero]
  | succ fuel ih =>
    match s with
    | [] => rfl
    | c :: r =>
      unfold kwScanF
      by_cases hp : p
      · simp only [hp, if_true, List.length_cons, ih]
      · simp only [hp, if_false, Bool.false_eq_true]
        cases htk : tryKw (c :: r) with
        | none => simp only [List.length_cons, ih]
        | some n =>
          have hn := tryKw_pos htk
          simp only [List.length_append, List.length_map, ih, List.length_take,
            List.length_drop, List.length_cons]
          omega

theorem kwScanF_cons (fuel : Nat) (p : Bool) (c : Char) (r : List Char) :
    kwScanF (fuel + 1) p (c :: r) =
      if p then c :: kwScanF fuel (isWordChar c) r
      else
        match tryKw (c :: r) with
        | some n => ((c :: r).take n).map Char.toUpper ++ kwScanF fuel true ((c :: r).drop n)
        | none => c :: kwScanF fuel (isWordChar c) r := rfl

theorem kwScanF_idem (fuel : Nat) (p : Bool) (s : List Char) :
    kwScanF fuel p (kwScanF fuel p s) = kwScanF fuel p s := by
  induction fuel generalizing p s with
  | zero => rw [kwScanF_zero, kwScanF_zero]
  | succ fuel ih =>
    match s with
    | [] => rfl
    | c :: r =>
      by_cases hp : p = true
      · subst hp
        have hA : kwScanF (fuel + 1) true (c :: r) = c :: kwScanF fuel (isWordChar c) r := by
          rw [kwScanF_cons, if_pos rfl]
        rw [hA, kwScanF_cons, if_pos rfl, ih]
      · have hp2 : p = false := by simpa using hp
        subst hp2
        cases htk : tryKw (c :: r) with
        | none =>
          have hA : kwScanF (fuel + 1) false (c :: r) = c :: kwScanF fuel (isWordChar c) r := by
            rw [kwScanF_cons, if_neg (by simp), htk]
          rw [hA, kwScanF_cons, if_neg (by simp)]
          have hcg : (c :: kwScanF fuel (isWordChar c) r).map Char.toUpper
              = (c :: r).map Char.toUpper := by
            simp only [List.map_cons, kwScanF_toUpper]
          rw [tryKw_congr hcg, htk, ih]
        | some n =>
          have hn := tryKw_pos htk
          obtain ⟨m, rfl⟩ : ∃ m, n = m + 1 := ⟨n - 1, by omega⟩
          have hmr : m ≤ r.length := by
            have := hn.2
            simp at this
            omega
          have hA : kwScanF (fuel + 1) false (c :: r) =
              c.toUpper :: ((r.take m).map Char.toUpper ++ kwScanF fuel true (r.drop m)) := by
            rw [kwScanF_cons, if_neg (by simp), htk]
            dsimp only
            rw [List.take_succ_cons, List.map_cons, List.cons_append, List.drop_succ_cons]
          rw [hA, kwScanF_cons, if_neg (by simp)]
          have hTid : ((r.take m).map Char.toUpper).map Char.toUpper
              = (r.take m).map Char.toUpper := by
            rw [List.map_map]
            have hcomp : Char.toUpper ∘ Char.toUpper = Char.toUpper := by
              funext x
              exact toUpper_toUpper x
            rw [hcomp]
          have hcg : (c.toUpper :: ((r.take m).map Char.toUpper
                ++ kwScanF fuel true (r.drop m))).map Char.toUpper
              = (c :: r).map Char.toUpper := by
            simp only [List.map_cons, List.map_append, toUpper_toUpper, hTid,
              kwScanF_toUpper]
            rw [← List.map_append, List.take_append_drop]
          rw [tryKw_congr hcg, htk]
          have hTlen : ((r.take m).map Char.toUpper).length = m := by
            simp [List.length_take]
            omega
          dsimp only
          rw [List.take_succ_cons, List.drop_succ_cons]
          rw [List.take_left' hTlen, List.drop_left' hTlen]
          rw [List.map_cons, toUpper_toUpper, hTid, ih, List.cons_append]

theorem kwScan_idem (s : List Char) : kwScan false (kwScan false s) = kwScan false s := by
  unfold kwScan
  rw [kwScanF_length]
  exact kwScanF_idem s.length false s

/-! ### Variable extraction: positions and ordering -/

theorem utf8Size_eq_one {c : Char} (h : c.toNat < 128) : c.utf8Size = 1 := by
  unfold Char.utf8Size
  dsimp only
  rw [if_pos]
  rw [UInt32.le_def, BitVec.le_def]
  have h2 : c.val.toBitVec.toNat = c.toNat := rfl
  rw [h2]
  have h3 : (UInt32.ofNatCore 127 Char.utf8Size.proof_1).toBitVec.toNat = 127 := rfl
  rw [h3]
  omega

theorem utf8Len_eq_length {l : List Char} (h : ∀ c ∈ l, c.toNat < 128) :
    utf8Len l = l.length := by
  induction l with
  | nil => rfl
  | cons c r ih =>
    simp only [utf8Len, List.length_cons, utf8Size_eq_one (h c (by simp)),
      ih (fun d hd => h d (by simp [hd]))]
    omega

theorem isIdentRest_of_first {c : Char} (h : isIdentFirst c = true) :
    isIdentRest c = true := by
  unfold isIdentRest
  rw [h]
  rfl

theorem tryDeclAt_spec {s : List Char} {kn wn : Nat} {id : List Char}
    (h : tryDeclAt s = some (kn, wn, id)) :
    s = s.take kn ++ ((s.drop kn).take wn) ++ id ++ s.drop (kn + wn + id.length) ∧
    (s.take kn).length = kn ∧ ((s.drop kn).take wn).length = wn ∧
    id ≠ [] ∧ (∀ c ∈ id, isIdentRest c = true) := by
  obtain ⟨k, hk, he⟩ := List.exists_of_findSome?_eq_some h
  by_cases hci : ciStarts k s = true
  · rw [if_pos hci] at he
    by_cases hws : ((s.drop k.length).takeWhile isWs).isEmpty = true
    · rw [if_pos hws] at he
      cases he
    · rw [if_neg hws] at he
      cases hm : s.drop (k.length + ((s.drop k.length).takeWhile isWs).length) with
      | nil => rw [hm] at he; cases he
      | cons c r =>
        rw [hm] at he
        dsimp only at he
        by_cases hif : isIdentFirst c = true
        · rw [if_pos hif] at he
          obtain ⟨h1, h2, h3⟩ : kn = k.length ∧ wn = ((s.drop k.length).takeWhile isWs).length
              ∧ id = c :: r.takeWhile isIdentRest := by
            cases he
            exact ⟨rfl, rfl, rfl⟩
          subst h1
          subst h2
          subst h3
          have hkle : k.length ≤ s.length := ciStarts_length_le hci
          set W := (s.drop k.length).takeWhile isWs with hWdef
          set X := (s.drop k.length).dropWhile isWs with hXdef
          set T := r.takeWhile isIdentRest with hTdef
          have hwsdec : s.drop k.length = W ++ X := by
            rw [hWdef, hXdef]
            exact (List.takeWhile_append_dropWhile _ _).symm
          have htk : (s.take k.length).length = k.length := by
            simp [List.length_take]
            omega
          have htw : (s.drop k.length).take W.length = W := by
            rw [hwsdec]
            exact List.take_left' rfl
          have hX2 : s.drop (k.length + W.length) = X := by
            rw [← List.drop_drop, hwsdec]
            exact List.drop_left' rfl
          have hcr : X = c :: r := by
            rw [← hX2, hm]
          have hrdec : (c :: r : List Char) = (c :: T) ++ r.dropWhile isIdentRest := by
            rw [List.cons_append]
            congr 1
            rw [hTdef]
            exact (List.takeWhile_append_dropWhile _ _).symm
          have hsdec : s = s.take k.length ++ (W ++ ((c :: T) ++ r.dropWhile isIdentRest)) := by
            conv_lhs => rw [← List.take_append_drop k.length s]
            rw [hwsdec, hcr, hrdec]
          have hsdec2 : s = (s.take k.length ++ W ++ (c :: T)) ++ r.dropWhile isIdentRest := by
            conv_lhs => rw [hsdec]
            simp [List.append_assoc]
          have hlen : (s.take k.length ++ W ++ (c :: T)).length
              = k.length + W.length + (c :: T).length := by
            simp [List.length_append, htk]
            omega
          have hpost : s.drop (k.length + W.length + (c :: T).length)
              = r.dropWhile isIdentRest := by
            conv_lhs => rw [hsdec2]
            exact List.drop_left' hlen
          refine ⟨?_, htk, ?_, by simp, ?_⟩
          · rw [htw, hpost]
            conv_lhs => rw [hsdec]
            simp [List.append_assoc]
          · rw [htw]
          · intro c2 hc2
            rcases List.mem_cons.mp hc2 with h2 | h2
            · subst h2
              exact isIdentRest_of_first hif
            · rw [hTdef] at h2
              exact List.mem_takeWhile_imp h2
        · rw [if_neg hif] at he
          cases he
  · rw [if_neg hci] at he
    cases he

theorem scanDeclsF_zero (prevW : Bool) (pos : Nat) (s : List Char) :
    scanDeclsF 0 prevW pos s = [] := by
  cases s <;> rfl

theorem utf8Len_pos {l : List Char} (h : l ≠ []) : 1 ≤ utf8Len l := by
  cases l with
  | nil => exact absurd rfl h
  | cons c r =>
    have := utf8Size_pos c
    simp only [utf8Len]
    omega

theorem scanDeclsF_spec (fuel : Nat) (prevW : Bool) (pos : Nat) (s : List Char) :
    ∀ m ∈ scanDeclsF fuel prevW pos s,
      (∃ pre post, s = pre ++ m.ident ++ post ∧ pos + utf8Len pre = m.identStart) ∧
      m.ident ≠ [] ∧ (∀ c ∈ m.ident, isIdentRest c = true) := by
  induction fuel generalizing prevW pos s with
  | zero =>
    rw [scanDeclsF_zero]
    intro m hm
    cases hm
  | succ fuel ih =>
    match s with
    | [] => intro m hm; cases hm
    | c :: r =>
      unfold scanDeclsF
      by_cases hp : prevW = true
      · rw [if_pos hp]
        intro m hm
        obtain ⟨⟨pre, post, hdec, hpos⟩, hne, hmem⟩ := ih _ _ _ m hm
        refine ⟨⟨c :: pre, post, by rw [hdec]; rfl, ?_⟩, hne, hmem⟩
        simp only [utf8Len] at hpos ⊢
        omega
      · rw [if_neg hp]
        cases htd : tryDeclAt (c :: r) with
        | none =>
          dsimp only
          intro m hm
          obtain ⟨⟨pre, post, hdec, hpos⟩, hne, hmem⟩ := ih _ _ _ m hm
          refine ⟨⟨c :: pre, post, by rw [hdec]; rfl, ?_⟩, hne, hmem⟩
          simp only [utf8Len] at hpos ⊢
          omega
        | some x =>
          obtain ⟨kn, wn, id⟩ := x
          obtain ⟨hdec, hlkw, hlws, hidne, hidmem⟩ := tryDeclAt_spec htd
          dsimp only
          intro m hm
          rcases List.mem_cons.mp hm with hm0 | hmrec
          · subst hm0
            dsimp only
            refine ⟨⟨(c :: r).take kn ++ ((c :: r).drop kn).take wn,
              (c :: r).drop (kn + wn + id.length), ?_, ?_⟩, hidne, hidmem⟩
            · conv_lhs => rw [hdec]
              try simp [List.append_assoc]
            · rw [utf8Len_append]
              omega
          · obtain ⟨⟨pre, post, hdec2, hpos⟩, hne, hmem⟩ := ih _ _ _ m hmrec
            refine ⟨⟨(c :: r).take kn ++ ((c :: r).drop kn).take wn ++ id ++ pre, post,
              ?_, ?_⟩, hne, hmem⟩
            · conv_lhs => rw [hdec]
              rw [hdec2]
              simp [List.append_assoc]
            · simp only [utf8Len_append] at hpos ⊢
              omega

theorem scanDeclsF_lb (fuel : Nat) (prevW : Bool) (pos : Nat) (s : List Char) :
    ∀ m ∈ scanDeclsF fuel prevW pos s, pos ≤ m.identStart := by
  induction fuel generalizing prevW pos s with
  | zero =>
    rw [scanDeclsF_zero]
    intro m hm
    cases hm
  | succ fuel ih =>
    match s with
    | [] => intro m hm; cases hm
    | c :: r =>
      unfold scanDeclsF
      by_cases hp : prevW = true
      · rw [if_pos hp]
        intro m hm
        have := ih _ _ _ m hm
        have hcz := utf8Size_pos c
        omega
      · rw [if_neg hp]
        cases htd : tryDeclAt (c :: r) with
        | none =>
          dsimp only
          intro m hm
          have := ih _ _ _ m hm
          have hcz := utf8Size_pos c
          omega
        | some x =>
          obtain ⟨kn, wn, id⟩ := x
          dsimp only
          intro m hm
          rcases List.mem_cons.mp hm with hm0 | hmrec
          · subst hm0
            dsimp only
            omega
          · have := ih _ _ _ m hmrec
            omega

theorem scanDeclsF_sorted (fuel : Nat) (prevW : Bool) (pos : Nat) (s : List Char) :
    List.Pairwise (fun a b => a.identStart < b.identStart) (scanDeclsF fuel prevW pos s) := by
  induction fuel generalizing prevW pos s with
  | zero =>
    rw [scanDeclsF_zero]
    exact List.Pairwise.nil
  | succ fuel ih =>
    match s with
    | [] => exact List.Pairwise.nil
    | c :: r =>
      unfold scanDeclsF
      by_cases hp : prevW = true
      · rw [if_pos hp]
        exact ih _ _ _
      · rw [if_neg hp]
        cases htd : tryDeclAt (c :: r) with
        | none =>
          dsimp only
          exact ih _ _ _
        | some x =>
          obtain ⟨kn, wn, id⟩ := x
          obtain ⟨hdec, hlkw, hlws, hidne, hidmem⟩ := tryDeclAt_spec htd
          dsimp only
          refine List.Pairwise.cons ?_ (ih _ _ _)
          intro b hb
          have hlb := scanDeclsF_lb _ _ _ _ b hb
          have hip := utf8Len_pos hidne
          dsimp only
          omega

theorem isIdentRest_lt128 {c : Char} (h : isIdentRest c = true) : c.toNat < 128 := by
  unfold isIdentRest isIdentFirst at h
  simp at h
  omega

theorem pairwise_enumFrom_lt {α : Type} (l : List α) (n : Nat) :
    List.Pairwise (fun a b => a.1 < b.1) (List.enumFrom n l) := by
  induction l generalizing n with
  | nil => exact List.Pairwise.nil
  | cons c r ih =>
    refine List.Pairwise.cons ?_ (ih (n + 1))
    intro b hb
    obtain ⟨j, x⟩ := b
    have := (List.mem_enumFrom hb).1
    simpa using this

theorem lineVars_line (i : Nat) (l : List Char) : ∀ v ∈ lineVars i l, v.line = i + 1 := by
  intro v hv
  obtain ⟨m, hm, hveq⟩ := List.mem_map.mp hv
  subst hveq
  rfl

/-! ### Claim theorems -/

/-- C3: the formatting entry point is claimed to have no failure path on any
well-formed Unicode input, in particular on lines with multi-byte characters
exceeding the configured width.  The code violates this: on the two-character
line `éé` (4 UTF-8 bytes) with `line_width = 3`, no clause marker or comma
qualifies and the wrapping step slices the line at byte index 3, which falls
inside the second `é` — a panic (`byte index 3 is not a char boundary`),
modelled as `none`. -/
theorem c3_panic_on_multibyte :
    format_sql { line_width := 3, indent := IndentStyle.Two, uppercase_keywords := true }
      "éé".toList = none := by
  decide

/-- C4 (counterexample): the claim says a normalized line longer than the
width is always split (at a marker, the last comma, or exactly at the width
boundary).  On the line `éé` with `line_width = 3` the byte length 4 exceeds
the width, yet the wrapper produces no output at all: the hard cut at byte 3
is not a character boundary and the code panics (`none`). -/
theorem c4_counterexample :
    wrapLine 3 2 "éé".toList = none ∧ 3 < utf8Len "éé".toList := by
  decide

/-- C4 (amended): the line wrapper behaves exactly as the claim describes —
pass-through for fitting lines, and otherwise iterated splitting at the
first priority-ordered clause marker strictly inside `(0, line_width)`,
else one past the last comma before the width, else at the width boundary,
rendering the first segment with no added indent and every later segment
indented by one `indent_width` unit and trimmed — provided every chosen
split offset is a character boundary; where it is not (multi-byte text, as
in the counterexample), both sides abort (`none`). -/
theorem c4_wrapper_spec (w iw : Nat) (line : List Char) :
    wrapLine w iw line = wrapLineSpec w iw line := by
  unfold wrapLine wrapLineSpec
  split
  · exact wrapLoopF_eq_spec _ _ _ _ _
  · rfl

/-- C5: for a unit whose case-insensitive leading token starts with `END`,
the indentation engine decrements the depth once before emitting (the unit
is emitted with `(level - 1) * indent_width` spaces, floored at zero), and
when the trimmed uppercased unit is exactly `END` or starts with `"END "`
it decrements a second time after emission (again floored), in addition to
the possible increment for a `(` contained in the unit; a unit that starts
with `END` but matches neither form (such as `END;`) gets only the step-1
decrement (plus the possible `(` increment). -/
theorem c5_end_double_decrement (iw level : Nat) (line : List Char)
    (h : List.isPrefixOf "END".toList (ltrim (line.map Char.toUpper)) = true) :
    (indentStep iw level line).1 = mkIndent ((level - 1) * iw) ++ strTrim line ∧
    (indentStep iw level line).2 =
      (if List.isPrefixOf "END ".toList (ltrim (line.map Char.toUpper)) = true
          ∨ ltrim (line.map Char.toUpper) = "END".toList then
         (if (strTrim line).contains '(' = true then level - 1 else level - 2)
       else (level - 1) + (if (strTrim line).contains '(' = true then 1 else 0)) := by
  have ht := List.prefix_iff_eq_append.mp (List.isPrefixOf_iff_prefix.mp h)
  have hu3 : ltrim (line.map Char.toUpper) =
      'E' :: 'N' :: 'D' :: List.drop ("END".toList.length) (ltrim (line.map Char.toUpper)) := by
    conv_lhs => rw [← ht]
    rfl
  unfold indentStep
  rw [hu3]
  simp only [List.isPrefixOf, Bool.and_eq_true, beq_iff_eq]
  simp only [mkIndent]
  simp
  constructor
  · omega
  · split_ifs <;> omega

/-- C5 (witness): the theorem applied to the unit `end (x` at depth 3 with
`indent_width = 2`: a leading `END ` token with a `(` in the unit — one
decrement before emission, one increment for the parenthesis, one decrement
after. -/
theorem c5_end_double_decrement_witness :
    (indentStep 2 3 "end (x".toList).1 = mkIndent ((3 - 1) * 2) ++ strTrim "end (x".toList ∧
    (indentStep 2 3 "end (x".toList).2 =
      (if List.isPrefixOf "END ".toList (ltrim ("end (x".toList.map Char.toUpper)) = true
          ∨ ltrim ("end (x".toList.map Char.toUpper) = "END".toList then
         (if (strTrim "end (x".toList).contains '(' = true then 3 - 1 else 3 - 2)
       else (3 - 1) + (if (strTrim "end (x".toList).contains '(' = true then 1 else 0)) :=
  c5_end_double_decrement 2 3 "end (x".toList (by decide)

/-- C6 (counterexample): the claim says the whitespace normalizer leaves no
whitespace before a comma.  On the line `a , b` the comma rule `,\s*` only
normalizes the whitespace after the comma, so the output still contains a
space immediately before the comma (position 1 is a space, position 2 the
comma). -/
theorem c6_counterexample :
    normalizeLine "a , b".toList = "a , b".toList ∧
    (normalizeLine "a , b".toList).get? 1 = some ' ' ∧
    (normalizeLine "a , b".toList).get? 2 = some ',' := by
  decide

/-- C6 (amended): after the whitespace normalizer, every comma is followed
by exactly one space (the next character is a space and the character after
that, if any, is not whitespace); whitespace before a comma is not
removed. -/
theorem c6_comma_spacing (raw : List Char) : commaOK (normalizeLine raw) = true :=
  opStepF_ok _ _ (commaStepF_ok _ _ (Nat.le_refl _))

/-- C9: the Keyword Normalizer is idempotent — with `uppercase_keywords`
set, applying the keyword-uppercasing pass to its own output yields that
output unchanged (matching is case-insensitive, uppercasing preserves word
characters and hence `\b` boundaries, so the same matches are found again
and ASCII-uppercasing is idempotent); with the flag unset the step is the
identity on the text. -/
theorem c9_keyword_idempotent (s : List Char) :
    uppercasePhase true (uppercasePhase true s) = uppercasePhase true s ∧
    uppercasePhase false s = s := by
  constructor
  · simp only [uppercasePhase, if_true]
    exact kwScan_idem s
  · rfl

/-- C10: every extracted `Variable` record has `line` 1-based, `column` the
identifier's 1-based start (byte) offset within its line — the identifier
text actually occurs there — and `end_column` equal to the identifier's
exclusive end offset plus one, so `end_column - column` is the identifier's
length; and the records are ordered by line and, within a line, left to
right (strictly increasing columns). -/
theorem c10_positions (input : List Char) :
    (∀ v ∈ allVariables input,
      v.end_column = v.column + v.name.length ∧ 1 ≤ v.line ∧ 1 ≤ v.column ∧
      ∃ l pre post, (rustLines input)[v.line - 1]? = some l ∧
        l = pre ++ v.name ++ post ∧ utf8Len pre + 1 = v.column) ∧
    List.Pairwise (fun a b => a.line < b.line ∨ (a.line = b.line ∧ a.column < b.column))
      (allVariables input) := by
  constructor
  · intro v hv
    obtain ⟨p, hpmem, hvin⟩ := List.mem_flatMap.mp hv
    obtain ⟨i, l⟩ := p
    obtain ⟨m, hmmem, hveq⟩ := List.mem_map.mp hvin
    obtain ⟨⟨pre, post, hdec, hpos⟩, hne, hmem⟩ := scanDeclsF_spec _ _ _ _ m hmmem
    subst hveq
    dsimp only
    refine ⟨?_, by omega, by omega, ?_⟩
    · rw [utf8Len_eq_length (fun c hc => isIdentRest_lt128 (hmem c hc))]
      omega
    · refine ⟨l, pre, post, ?_, hdec, by omega⟩
      have hg := List.mem_enum_iff_getElem?.mp hpmem
      simpa using hg
  · unfold allVariables
    apply List.pairwise_flatMap.mpr
    constructor
    · intro p hp
      obtain ⟨i, l⟩ := p
      unfold lineVars
      apply List.pairwise_map.mpr
      apply (scanDeclsF_sorted _ _ _ _).imp
      intro a b hab
      exact Or.inr ⟨rfl, by simpa using Nat.succ_lt_succ hab⟩
    · have henum := pairwise_enumFrom_lt (rustLines input) 0
      apply henum.imp
      intro a b hab x hx y hy
      have hxl := lineVars_line a.1 a.2 x ?_
      · have hyl := lineVars_line b.1 b.2 y ?_
        · left
          omega
        · exact hy
      · exact hx

/-- C10 (witness): the theorem applied to the input `SET x 1` and its single
extracted variable (line 1, column 5, end_column 6). -/
theorem c10_positions_witness :
    ({ name := ['x'], declaration_type := "SET".toList, line := 1, column := 5,
        end_column := 6 } : Variable) ∈ allVariables "SET x 1".toList ∧
    (({ name := ['x'], declaration_type := "SET".toList, line := 1, column := 5,
        end_column := 6 } : Variable).end_column = 5 + 1) :=
  ⟨by decide, by
    have h := (c10_positions "SET x 1".toList).1
      { name := ['x'], declaration_type := "SET".toList, line := 1, column := 5,
        end_column := 6 } (by decide)
    simp only [h.1]⟩

-- message key extraction lemmas
theorem dupKeyOf_mkDup (v : Variable) : dupKeyOf (mkDupDiag v) = some (lowerName v) := by
  unfold dupKeyOf mkDupDiag dupMessage lowerName
  rw [if_pos rfl]
  dsimp only
  congr 1
  have hdrop : ("Variable '".toList ++ (v.name ++ "' has already been declared".toList)).drop 10
      = v.name ++ "' has already been declared".toList :=
    List.drop_left' (by decide)
  rw [List.append_assoc, hdrop]
  have hlen : ("Variable '".toList ++ (v.name ++ "' has already been declared".toList)).length
      = v.name.length + 37 := by
    simp [List.length_append]
    try omega
  rw [hlen]
  have h37 : v.name.length + 37 - 37 = v.name.length := by omega
  rw [h37]
  rw [List.take_left' rfl]

theorem unusedKeyOf_mkUnused (v : Variable) :
    unusedKeyOf (mkUnusedDiag v) = some (lowerName v) := by
  unfold unusedKeyOf mkUnusedDiag unusedMessage lowerName
  rw [if_pos rfl]
  dsimp only
  congr 1
  have hdrop : ("Unused variable '".toList ++ (v.name ++ "'".toList)).drop 17
      = v.name ++ "'".toList :=
    List.drop_left' (by decide)
  rw [List.append_assoc, hdrop]
  have hlen : ("Unused variable '".toList ++ (v.name ++ "'".toList)).length
      = v.name.length + 18 := by
    simp [List.length_append]
    try omega
  rw [hlen]
  have h18 : v.name.length + 18 - 18 = v.name.length := by omega
  rw [h18]
  rw [List.take_left' rfl]

theorem dupKeyOf_mkUnused (v : Variable) : dupKeyOf (mkUnusedDiag v) = none := by
  unfold dupKeyOf mkUnusedDiag
  dsimp only
  rw [if_neg (by decide)]

theorem unusedKeyOf_mkDup (v : Variable) : unusedKeyOf (mkDupDiag v) = none := by
  unfold unusedKeyOf mkDupDiag
  dsimp only
  rw [if_neg (by decide)]

theorem findGroup_insertGroup (gs : List (List Char × List Variable)) (k key : List Char)
    (v : Variable) :
    findGroup (insertGroup gs k v) key =
      if k = key then
        (match findGroup gs key with
         | none => some [v]
         | some ds => some (ds ++ [v]))
      else findGroup gs key := by
  induction gs with
  | nil => by_cases hk : k = key <;> simp [insertGroup, findGroup, hk]
  | cons g rest ih =>
    obtain ⟨k2, vs2⟩ := g
    by_cases h2 : k2 = k
    · subst h2
      by_cases hk : k2 = key
      · subst hk
        simp [insertGroup, findGroup]
      · simp [insertGroup, findGroup, hk]
    · by_cases hk : k2 = key
      · subst hk
        have hne : ¬ k = k2 := fun hcon => h2 hcon.symm
        simp [insertGroup, findGroup, h2, hne]
      · simp [insertGroup, findGroup, h2, hk, ih]

theorem findGroup_groupList_aux (vars : List Variable)
    (acc : List (List Char × List Variable)) (key : List Char) :
    findGroup (vars.foldl (fun gs v => insertGroup gs (lowerName v) v) acc) key =
      (match findGroup acc key, vars.filter (fun v => lowerName v = key) with
       | none, [] => none
       | none, ds => some ds
       | some vs, ds => some (vs ++ ds)) := by
  induction vars generalizing acc with
  | nil =>
    rw [List.foldl_nil, List.filter_nil]
    cases hfa : findGroup acc key with
    | none => rfl
    | some vs => simp
  | cons v vs ih =>
    rw [List.foldl_cons, ih]
    rw [findGroup_insertGroup]
    by_cases hv : lowerName v = key
    · rw [if_pos hv]
      cases hfa : findGroup acc key with
      | none =>
        dsimp only
        rw [List.filter_cons, if_pos (by simp [hv])]
        cases hfil : vs.filter (fun w => lowerName w = key) with
        | nil => rfl
        | cons a as => rfl
      | some ds =>
        dsimp only
        rw [List.filter_cons, if_pos (by simp [hv])]
        simp [List.append_assoc]
    · rw [if_neg hv]
      rw [List.filter_cons, if_neg (by simp [hv])]

theorem findGroup_groupList (vars : List Variable) (key : List Char) :
    findGroup (groupList vars) key =
      (match vars.filter (fun v => lowerName v = key) with
       | [] => none
       | ds => some ds) := by
  unfold groupList
  rw [findGroup_groupList_aux]
  have hnil : findGroup [] key = none := rfl
  rw [hnil]
  cases vars.filter (fun v => lowerName v = key) with
  | nil => rfl
  | cons a as => rfl

theorem findGroup_eq_none_iff {gs : List (List Char × List Variable)} {key : List Char} :
    findGroup gs key = none ↔ key ∉ gs.map Prod.fst := by
  induction gs with
  | nil => simp [findGroup]
  | cons g rest ih =>
    obtain ⟨k2, vs2⟩ := g
    by_cases hk : k2 = key
    · subst hk
      simp [findGroup]
    · simp [findGroup, hk, ih, Ne.symm hk]

theorem mem_of_findGroup {gs : List (List Char × List Variable)} {key : List Char}
    {ds : List Variable} (h : findGroup gs key = some ds) : (key, ds) ∈ gs := by
  induction gs with
  | nil => cases h
  | cons g rest ih =>
    obtain ⟨k2, vs2⟩ := g
    by_cases hk : k2 = key
    · subst hk
      rw [findGroup, if_pos rfl] at h
      cases h
      exact List.mem_cons_self _ _
    · rw [findGroup, if_neg hk] at h
      exact List.mem_cons_of_mem _ (ih h)

theorem insertGroup_keys (gs : List (List Char × List Variable)) (k : List Char) (v : Variable) :
    (insertGroup gs k v).map Prod.fst =
      if k ∈ gs.map Prod.fst then gs.map Prod.fst else gs.map Prod.fst ++ [k] := by
  induction gs with
  | nil => simp [insertGroup]
  | cons g rest ih =>
    obtain ⟨k2, vs2⟩ := g
    by_cases h2 : k2 = k
    · subst h2
      simp [insertGroup]
    · simp only [insertGroup, if_neg h2, List.map_cons]
      rw [ih]
      by_cases hmem : k ∈ rest.map Prod.fst
      · rw [if_pos hmem, if_pos (by simp [hmem])]
      · rw [if_neg hmem, if_neg (by simp [hmem, Ne.symm h2])]
        rfl

theorem insertGroup_keys_nodup {gs : List (List Char × List Variable)} (k : List Char)
    (v : Variable) (h : (gs.map Prod.fst).Nodup) : ((insertGroup gs k v).map Prod.fst).Nodup := by
  rw [insertGroup_keys]
  by_cases hmem : k ∈ gs.map Prod.fst
  · rwa [if_pos hmem]
  · rw [if_neg hmem]
    rw [List.nodup_append]
    exact ⟨h, List.nodup_singleton _, by simpa using hmem⟩

theorem groupList_keys_nodup (vars : List Variable) :
    ((groupList vars).map Prod.fst).Nodup := by
  unfold groupList
  suffices hgen : ∀ acc : List (List Char × List Variable), (acc.map Prod.fst).Nodup →
      ((vars.foldl (fun gs v => insertGroup gs (lowerName v) v) acc).map Prod.fst).Nodup by
    exact hgen [] (by simp)
  induction vars with
  | nil => intro acc h; exact h
  | cons v vs ih =>
    intro acc h
    rw [List.foldl_cons]
    exact ih _ (insertGroup_keys_nodup _ _ h)

theorem findGroup_of_mem {gs : List (List Char × List Variable)} {key : List Char}
    {ds : List Variable} (hnd : (gs.map Prod.fst).Nodup) (h : (key, ds) ∈ gs) :
    findGroup gs key = some ds := by
  induction gs with
  | nil => cases h
  | cons g rest ih =>
    obtain ⟨k2, vs2⟩ := g
    simp only [List.map_cons, List.nodup_cons] at hnd
    rcases List.mem_cons.mp h with h0 | hr
    · cases h0
      rw [findGroup, if_pos rfl]
    · have hk : k2 ≠ key := by
        intro hcon
        subst hcon
        exact hnd.1 (List.mem_map.mpr ⟨(k2, ds), hr, rfl⟩)
      rw [findGroup, if_neg hk]
      exact ih hnd.2 hr

theorem flatMap_if_nil {β : Type} (gs : List (List Char × List Variable)) (key : List Char)
    (F : List Char × List Variable → List β) (h : key ∉ gs.map Prod.fst) :
    (gs.flatMap fun g => if g.1 = key then F g else []) = [] := by
  induction gs with
  | nil => rfl
  | cons g rest ih =>
    simp only [List.map_cons, List.mem_cons, not_or] at h
    rw [List.flatMap_cons, if_neg (fun hcon => h.1 hcon.symm), ih h.2]
    rfl

theorem flatMap_if_single {β : Type} {gs : List (List Char × List Variable)} {key : List Char}
    {ds : List Variable} (F : List Char × List Variable → List β)
    (hnd : (gs.map Prod.fst).Nodup) (hmem : (key, ds) ∈ gs) :
    (gs.flatMap fun g => if g.1 = key then F g else []) = F (key, ds) := by
  induction gs with
  | nil => cases hmem
  | cons g rest ih =>
    obtain ⟨k2, vs2⟩ := g
    simp only [List.map_cons, List.nodup_cons] at hnd
    rcases List.mem_cons.mp hmem with h0 | hr
    · cases h0
      rw [List.flatMap_cons, if_pos rfl]
      rw [flatMap_if_nil _ _ _ hnd.1, List.append_nil]
    · have hk : k2 ≠ key := by
        intro hcon
        subst hcon
        exact hnd.1 (List.mem_map.mpr ⟨(k2, ds), hr, rfl⟩)
      rw [List.flatMap_cons, if_neg hk, ih hnd.2 hr]
      rfl

theorem groupDup_drop (ds : List Variable) : groupDup ds = (ds.drop 1).map mkDupDiag := by
  by_cases h : 1 < ds.length
  · rw [groupDup, if_pos h]
  · rw [groupDup, if_neg h]
    cases ds with
    | nil => rfl
    | cons a t =>
      cases t with
      | nil => rfl
      | cons b t2 =>
        exact absurd (by simp) h

theorem filter_groupList_eq {vars : List Variable} {key : List Char} {ds : List Variable}
    (h : findGroup (groupList vars) key = some ds) :
    ds = vars.filter (fun v => lowerName v = key) := by
  rw [findGroup_groupList] at h
  cases hf : vars.filter (fun v => lowerName v = key) with
  | nil => rw [hf] at h; cases h
  | cons a as =>
    rw [hf] at h
    cases h
    rfl

theorem filter_eq_nil_of_findGroup_none {vars : List Variable} {key : List Char}
    (h : findGroup (groupList vars) key = none) :
    vars.filter (fun v => lowerName v = key) = [] := by
  rw [findGroup_groupList] at h
  cases hf : vars.filter (fun v => lowerName v = key) with
  | nil => rfl
  | cons a as => rw [hf] at h; cases h

theorem dup_filter_eq (input : List Char)
    (f : List (List Char × List Variable) → List (List Char × List Variable))
    (hf : IsGroupOrder f) (key : List Char) :
    (analyze_variables_with f input).filter (fun d => dupKeyOf d = some key) =
      (((allVariables input).filter (fun w => lowerName w = key)).drop 1).map mkDupDiag := by
  unfold analyze_variables_with
  rw [List.filter_append]
  have hU : (unusedSection input (allVariables input)).filter
      (fun d => dupKeyOf d = some key) = [] := by
    rw [List.filter_eq_nil_iff]
    intro d hd
    obtain ⟨v, hv, hdv⟩ := List.mem_map.mp hd
    subst hdv
    simp [dupKeyOf_mkUnused]
  rw [hU, List.append_nil]
  unfold dupSection
  rw [List.filter_flatMap]
  have hgs := hf (groupList (allVariables input))
  have hnd : ((f (groupList (allVariables input))).map Prod.fst).Nodup :=
    ((hgs.map Prod.fst).nodup_iff).mpr (groupList_keys_nodup _)
  have hcong : ∀ g ∈ f (groupList (allVariables input)),
      (groupDup g.2).filter (fun d => dupKeyOf d = some key) =
        (fun g => if g.1 = key then groupDup g.2 else []) g := by
    intro g hg
    obtain ⟨k2, ds2⟩ := g
    have hmemg : (k2, ds2) ∈ groupList (allVariables input) := hgs.mem_iff.mp hg
    have hfg : findGroup (groupList (allVariables input)) k2 = some ds2 :=
      findGroup_of_mem (groupList_keys_nodup _) hmemg
    have hds2 : ds2 = (allVariables input).filter (fun v => lowerName v = k2) :=
      filter_groupList_eq hfg
    dsimp only
    by_cases hk : k2 = key
    · subst hk
      rw [if_pos rfl]
      rw [List.filter_eq_self]
      intro d hd
      rw [groupDup_drop] at hd
      obtain ⟨v, hv, hdv⟩ := List.mem_map.mp hd
      subst hdv
      have hvds : v ∈ ds2 := List.mem_of_mem_drop hv
      have : lowerName v = k2 := by
        rw [hds2] at hvds
        have := List.of_mem_filter hvds
        simpa using this
      simp [dupKeyOf_mkDup, this]
    · rw [if_neg hk]
      rw [List.filter_eq_nil_iff]
      intro d hd
      rw [groupDup_drop] at hd
      obtain ⟨v, hv, hdv⟩ := List.mem_map.mp hd
      subst hdv
      have hvds : v ∈ ds2 := List.mem_of_mem_drop hv
      have hlow : lowerName v = k2 := by
        rw [hds2] at hvds
        have := List.of_mem_filter hvds
        simpa using this
      simp [dupKeyOf_mkDup, hlow, hk]
  rw [List.flatMap_congr hcong]
  cases hfg : findGroup (groupList (allVariables input)) key with
  | none =>
    have hnk : key ∉ (f (groupList (allVariables input))).map Prod.fst := by
      intro hcon
      exact (findGroup_eq_none_iff.mp hfg) (((hgs.map Prod.fst).mem_iff).mp hcon)
    rw [flatMap_if_nil _ _ _ hnk]
    rw [filter_eq_nil_of_findGroup_none hfg]
    rfl
  | some ds =>
    have hmemf : (key, ds) ∈ f (groupList (allVariables input)) :=
      (hgs.mem_iff).mpr (mem_of_findGroup hfg)
    rw [flatMap_if_single _ hnd hmemf]
    dsimp only
    rw [groupDup_drop, ← filter_groupList_eq hfg]

theorem ciStarts_congr_left {n1 n2 : List Char}
    (h : n1.map Char.toLower = n2.map Char.toLower) (s : List Char) :
    ciStarts n1 s = ciStarts n2 s := by
  induction n1 generalizing n2 s with
  | nil =>
    cases n2 with
    | nil => rfl
    | cons b bs => simp at h
  | cons a as ih =>
    cases n2 with
    | nil => simp at h
    | cons b bs =>
      simp only [List.map_cons, List.cons.injEq] at h
      cases s with
      | nil => rfl
      | cons c cs =>
        simp only [ciStarts, toUpper_congr_of_toLower h.1, ih h.2]

theorem wordCountF_congr (fuel : Nat) {n1 n2 : List Char}
    (h : n1.map Char.toLower = n2.map Char.toLower) (prevW : Bool) (s : List Char) :
    wordCountF fuel n1 prevW s = wordCountF fuel n2 prevW s := by
  have hlen : n1.length = n2.length := by
    have := congrArg List.length h
    simpa using this
  induction fuel generalizing prevW s with
  | zero => cases s <;> rfl
  | succ fuel ih =>
    match s with
    | [] => rfl
    | c :: r =>
      unfold wordCountF
      rw [ciStarts_congr_left h, hlen]
      have hemp : n1.isEmpty = n2.isEmpty := by
        cases n1 with
        | nil => cases n2 with | nil => rfl | cons b bs => simp at hlen
        | cons a as => cases n2 with | nil => simp at hlen | cons b bs => rfl
      rw [hemp]
      split
      · rw [ih]
      · rw [ih]

theorem is_variable_used_congr {input : List Char} {vars : List Variable} {n1 n2 : List Char}
    (h : n1.map Char.toLower = n2.map Char.toLower) :
    is_variable_used input n1 vars = is_variable_used input n2 vars := by
  unfold is_variable_used countOccurrences
  rw [wordCountF_congr _ h]
  have hfil : vars.filter (fun v => v.name.map Char.toLower = n1.map Char.toLower)
      = vars.filter (fun v => v.name.map Char.toLower = n2.map Char.toLower) := by
    apply List.filter_congr
    intro w hw
    rw [h]
  rw [hfil]

theorem unused_filter_eq (input : List Char)
    (f : List (List Char × List Variable) → List (List Char × List Variable))
    (key : List Char) :
    (analyze_variables_with f input).filter (fun d => unusedKeyOf d = some key) =
      ((allVariables input).filter (fun w => decide (lowerName w = key)
          && !(is_variable_used input w.name (allVariables input)))).map mkUnusedDiag := by
  unfold analyze_variables_with
  rw [List.filter_append]
  have hD : (dupSection (f (groupList (allVariables input)))).filter
      (fun d => unusedKeyOf d = some key) = [] := by
    rw [List.filter_eq_nil_iff]
    intro d hd
    unfold dupSection at hd
    obtain ⟨g, hg, hdg⟩ := List.mem_flatMap.mp hd
    rw [groupDup_drop] at hdg
    obtain ⟨v, hv, hdv⟩ := List.mem_map.mp hdg
    subst hdv
    simp [unusedKeyOf_mkDup]
  rw [hD, List.nil_append]
  unfold unusedSection
  rw [List.filter_map]
  congr 1
  rw [List.filter_filter]
  apply List.filter_congr
  intro w hw
  simp only [Function.comp_apply, unusedKeyOf_mkUnused]
  by_cases hk : lowerName w = key
  · simp [hk]
  · simp [hk]
/-- `is_variable_used` unfolded: a variable occurrence is used iff the
whole-word occurrence count strictly exceeds the number of declarations
sharing its lowercase name. -/
theorem used_iff (input : List Char) (v : Variable) (vars : List Variable) :
    is_variable_used input v.name vars = true ↔
      (vars.filter (fun w => lowerName w = lowerName v)).length
        < countOccurrences input v.name := by
  unfold is_variable_used lowerName
  simp

/-- Filtering the analysis output by the `unused-variable` code recovers
exactly the unused-variable loop's output, whatever the hash iteration
order: the duplicate section contributes nothing. -/
theorem code_unused_filter (input : List Char)
    (f : List (List Char × List Variable) → List (List Char × List Variable)) :
    (analyze_variables_with f input).filter (fun d => d.code = unusedCode) =
      unusedSection input (allVariables input) := by
  unfold analyze_variables_with
  rw [List.filter_append]
  have hD : (dupSection (f (groupList (allVariables input)))).filter
      (fun d => d.code = unusedCode) = [] := by
    rw [List.filter_eq_nil_iff]
    intro d hd
    unfold dupSection at hd
    obtain ⟨gp, hg, hdg⟩ := List.mem_flatMap.mp hd
    rw [groupDup_drop] at hdg
    obtain ⟨v, hv, hdv⟩ := List.mem_map.mp hdg
    subst hdv
    intro hcon
    have hbad : dupCode = unusedCode := of_decide_eq_true hcon
    exact absurd hbad (by decide)
  have hU : (unusedSection input (allVariables input)).filter
      (fun d => d.code = unusedCode) = unusedSection input (allVariables input) := by
    rw [List.filter_eq_self]
    intro d hd
    unfold unusedSection at hd
    obtain ⟨v, hv, hdv⟩ := List.mem_map.mp hd
    subst hdv
    exact decide_eq_true rfl
  rw [hD, hU, List.nil_append]

/-- C1 (counterexample to the final sentence): in
`SET x 1`⏎`SET x 2`⏎`x` the name `x` is declared twice and referenced
once elsewhere, but its three whole-word occurrences exceed its two
declarations, so the analysis emits no unused-variable diagnostic at
all — the claim says this name would be classified unused. -/
theorem c1_counterexample :
    ((allVariables "SET x 1\nSET x 2\nx".toList).filter
        (fun w => lowerName w = ['x'])).length = 2 ∧
    countOccurrences "SET x 1\nSET x 2\nx".toList ['x'] = 3 ∧
    (analyze_variables "SET x 1\nSET x 2\nx".toList).filter
        (fun d => d.code = unusedCode) = [] := by
  decide

/-- C1: for every input, hash iteration order and declared variable
occurrence `v`, the analysis compares the whole-word case-insensitive
occurrence count of `v`'s name over the entire input with the number of
declarations sharing its lowercase name: if the occurrence count is
strictly greater, no unused-variable diagnostic mentions the name;
otherwise every declaration occurrence of the name yields exactly one
unused-variable diagnostic (Warning, message `Unused variable '<name>'`,
positioned at that occurrence, as `mkUnusedDiag` records), in extraction
order.  (The claim's final sentence — declared twice plus one reference
implies unused — is false: the occurrence count includes the declaration
sites themselves, see the counterexample.) -/
theorem c1_usage_law (input : List Char)
    (f : List (List Char × List Variable) → List (List Char × List Variable))
    (hf : IsGroupOrder f) (v : Variable) (hv : v ∈ allVariables input) :
    (((allVariables input).filter (fun w => lowerName w = lowerName v)).length
        < countOccurrences input v.name →
      (analyze_variables_with f input).filter
          (fun d => unusedKeyOf d = some (lowerName v)) = []) ∧
    (countOccurrences input v.name
        ≤ ((allVariables input).filter (fun w => lowerName w = lowerName v)).length →
      (analyze_variables_with f input).filter
          (fun d => unusedKeyOf d = some (lowerName v)) =
        ((allVariables input).filter
            (fun w => lowerName w = lowerName v)).map mkUnusedDiag) := by
  constructor
  · intro hlt
    rw [unused_filter_eq]
    have h0 : (allVariables input).filter
        (fun w => decide (lowerName w = lowerName v)
          && !(is_variable_used input w.name (allVariables input))) = [] := by
      rw [List.filter_eq_nil_iff]
      intro w hw hcon
      rw [Bool.and_eq_true, Bool.not_eq_true'] at hcon
      have hk : w.name.map Char.toLower = v.name.map Char.toLower :=
        of_decide_eq_true hcon.1
      have husd : is_variable_used input w.name (allVariables input) = true := by
        rw [is_variable_used_congr hk]
        exact (used_iff input v (allVariables input)).mpr hlt
      rw [husd] at hcon
      exact absurd hcon.2 (by simp)
    rw [h0]
    rfl
  · intro hle
    rw [unused_filter_eq]
    refine congrArg (List.map mkUnusedDiag) ?_
    apply List.filter_congr
    intro w hw
    by_cases hk : lowerName w = lowerName v
    · have hk2 : w.name.map Char.toLower = v.name.map Char.toLower := hk
      have husd : is_variable_used input w.name (allVariables input) = false := by
        rw [is_variable_used_congr hk2]
        rw [Bool.eq_false_iff]
        intro hcon
        exact absurd ((used_iff input v (allVariables input)).mp hcon)
          (Nat.not_lt.mpr hle)
      simp [hk, husd]
    · simp [hk]

/-- C1 witness: in `SET x 1` the single declaration of `x` has one
occurrence, not more than its one declaration, so it produces its
unused-variable diagnostic. -/
theorem c1_usage_law_witness :
    (analyze_variables_with id "SET x 1".toList).filter
        (fun d => unusedKeyOf d = some ['x']) =
      ((allVariables "SET x 1".toList).filter
          (fun w => lowerName w = ['x'])).map mkUnusedDiag := by
  have h := (c1_usage_law "SET x 1".toList id (fun gs => List.Perm.refl gs)
      ⟨['x'], "SET".toList, 1, 5, 6⟩ (by decide)).2 (by decide)
  have hl : lowerName (⟨['x'], "SET".toList, 1, 5, 6⟩ : Variable) = ['x'] := by decide
  rw [hl] at h
  exact h

/-- C2: for every input, hash iteration order and lowercase key, the
duplicate-variable diagnostics about that key are exactly one
`mkDupDiag` (Error, message `Variable '<name>' has already been
declared`, positioned at the occurrence's line/column/end_column with
end_line = line) per declaration after the first, in extraction order,
and their number is the declaration count minus one. -/
theorem c2_duplicate_law (input : List Char)
    (f : List (List Char × List Variable) → List (List Char × List Variable))
    (hf : IsGroupOrder f) (key : List Char) :
    (analyze_variables_with f input).filter (fun d => dupKeyOf d = some key) =
      (((allVariables input).filter (fun w => lowerName w = key)).drop 1).map mkDupDiag ∧
    ((analyze_variables_with f input).filter (fun d => dupKeyOf d = some key)).length =
      ((allVariables input).filter (fun w => lowerName w = key)).length - 1 := by
  refine ⟨dup_filter_eq input f hf key, ?_⟩
  rw [dup_filter_eq input f hf key, List.length_map, List.length_drop]

/-- C2 witness at `SET a 1`⏎`SET a 2` with key `a`. -/
theorem c2_duplicate_law_witness :
    (analyze_variables_with id "SET a 1\nSET a 2".toList).filter
        (fun d => dupKeyOf d = some ['a']) =
      (((allVariables "SET a 1\nSET a 2".toList).filter
          (fun w => lowerName w = ['a'])).drop 1).map mkDupDiag ∧
    ((analyze_variables_with id "SET a 1\nSET a 2".toList).filter
        (fun d => dupKeyOf d = some ['a'])).length =
      ((allVariables "SET a 1\nSET a 2".toList).filter
          (fun w => lowerName w = ['a'])).length - 1 :=
  c2_duplicate_law "SET a 1\nSET a 2".toList id (fun gs => List.Perm.refl gs) ['a']

/-- C7 (counterexample): the output is not independent of the hash map's
iteration order — with two duplicated names `a` and `b`, the
first-insertion order and its reverse (both valid iteration orders of
the same map) give different diagnostic lists, so two runs whose hash
seeds realise these orders disagree. -/
theorem c7_counterexample :
    ¬ (∀ f g, IsGroupOrder f → IsGroupOrder g →
        analyze_variables_with f "SET a 1\nSET a 2\nSET b 3\nSET b 4".toList =
          analyze_variables_with g "SET a 1\nSET a 2\nSET b 3\nSET b 4".toList) := by
  intro h
  exact absurd (h id List.reverse (fun gs => List.Perm.refl gs)
    (fun gs => List.reverse_perm gs)) (by decide)

/-- C7: the analysis is deterministic up to the hash map's iteration
order: for any two valid orders the outputs are permutations of each
other, the duplicate diagnostics about each individual name agree
(including their relative order), and the unused-variable section
agrees exactly — only the relative order of duplicate diagnostics
across different names may differ between runs. -/
theorem c7_determinism_up_to_order (input : List Char)
    (f g : List (List Char × List Variable) → List (List Char × List Variable))
    (hf : IsGroupOrder f) (hg : IsGroupOrder g) :
    List.Perm (analyze_variables_with f input) (analyze_variables_with g input) ∧
    (∀ key, (analyze_variables_with f input).filter (fun d => dupKeyOf d = some key) =
      (analyze_variables_with g input).filter (fun d => dupKeyOf d = some key)) ∧
    (analyze_variables_with f input).filter (fun d => d.code = unusedCode) =
      (analyze_variables_with g input).filter (fun d => d.code = unusedCode) := by
  refine ⟨?_, ?_, ?_⟩
  · have hp : List.Perm (f (groupList (allVariables input)))
        (g (groupList (allVariables input))) := (hf _).trans (hg _).symm
    have h1 : analyze_variables_with f input =
        dupSection (f (groupList (allVariables input)))
          ++ unusedSection input (allVariables input) := rfl
    have h2 : analyze_variables_with g input =
        dupSection (g (groupList (allVariables input)))
          ++ unusedSection input (allVariables input) := rfl
    rw [h1, h2]
    apply List.Perm.append_right
    unfold dupSection
    rw [List.flatMap_def, List.flatMap_def]
    exact (hp.map _).flatten
  · intro key
    rw [dup_filter_eq input f hf key, dup_filter_eq input g hg key]
  · rw [code_unused_filter, code_unused_filter]

/-- C7 witness: first-insertion order and its reverse give permuted
outputs on `SET a 1`⏎`SET b 2`. -/
theorem c7_determinism_up_to_order_witness :
    List.Perm (analyze_variables_with id "SET a 1\nSET b 2".toList)
      (analyze_variables_with List.reverse "SET a 1\nSET b 2".toList) :=
  (c7_determinism_up_to_order "SET a 1\nSET b 2".toList id List.reverse
    (fun gs => List.Perm.refl gs) (fun gs => List.reverse_perm gs)).1

/-- C8: for every input and hash iteration order, the output is all
duplicate-variable diagnostics first — grouped by lowercase declaration
name (one contiguous block per map entry, in iteration order), within a
name in extraction order, skipping each name's first declaration —
followed by all unused-variable diagnostics over the declaration
occurrences in extraction order; and each map entry's vector is exactly
the extraction-ordered declarations of its key (so nothing is sorted by
source position). -/
theorem c8_ordering (input : List Char)
    (f : List (List Char × List Variable) → List (List Char × List Variable)) :
    analyze_variables_with f input =
      ((f (groupList (allVariables input))).flatMap
          fun gp => (gp.2.drop 1).map mkDupDiag)
        ++ ((allVariables input).filter
            (fun w => !(is_variable_used input w.name (allVariables input)))).map
          mkUnusedDiag ∧
    ∀ k ds, (k, ds) ∈ groupList (allVariables input) →
      ds = (allVariables input).filter (fun w => lowerName w = k) := by
  constructor
  · have h1 : analyze_variables_with f input =
        dupSection (f (groupList (allVariables input)))
          ++ unusedSection input (allVariables input) := rfl
    rw [h1]
    unfold dupSection unusedSection
    have hc : ∀ gp ∈ f (groupList (allVariables input)),
        groupDup gp.2 = (gp.2.drop 1).map mkDupDiag := fun gp _ => groupDup_drop gp.2
    rw [List.flatMap_congr hc]
  · intro k ds hmem
    exact filter_groupList_eq (findGroup_of_mem (groupList_keys_nodup _) hmem)

/-- C8 witness: on `SET a 1`⏎`SET a 2` the map entry for `a` holds both
declarations in extraction order. -/
theorem c8_ordering_witness :
    (['a'], [(⟨['a'], "SET".toList, 1, 5, 6⟩ : Variable),
      ⟨['a'], "SET".toList, 2, 5, 6⟩])
        ∈ groupList (allVariables "SET a 1\nSET a 2".toList) ∧
    [(⟨['a'], "SET".toList, 1, 5, 6⟩ : Variable),
      ⟨['a'], "SET".toList, 2, 5, 6⟩] =
      (allVariables "SET a 1\nSET a 2".toList).filter
        (fun w => lowerName w = ['a']) :=
  ⟨by decide, (c8_ordering "SET a 1\nSET a 2".toList id).2 ['a'] _ (by decide)⟩

end SqlFmt
